import Mathlib

/-
  Verification of the adjacency-map directed weighted graph implementation
  (data_structures/graphs/adjacency_map_directed_weighted_graph.py).

  The embedding models Python dicts as insertion-ordered association lists
  (Python dicts preserve insertion order, update values in place, and append
  new keys at the end).  Vertices are modelled as natural numbers; a Python
  value is "falsy" exactly when it is `None` or the integer `0`, which the
  embedding makes explicit wherever the source tests truthiness.
  `outgoing_edges` is a `defaultdict(dict)`, so a `[]`-read of a missing key
  inserts an empty inner dict (auto-vivification); `del` on a missing key
  raises `KeyError`.  Loops that Python runs unboundedly are given explicit
  fuel chosen far above the bound the loop can actually use.
-/

deriving instance DecidableEq for Except

namespace PyGraph

/-- First-match lookup in an insertion-ordered association list (Python `d[k]`
read / `k in d` test). -/
def plookup {β : Type} : List (Nat × β) → Nat → Option β
  | [], _ => none
  | (k, v) :: rest, key => if k = key then some v else plookup rest key

/-- Python `d[k] = v`: update the binding in place when the key is present,
otherwise append the new binding at the end. -/
def pset {β : Type} : List (Nat × β) → Nat → β → List (Nat × β)
  | [], key, val => [(key, val)]
  | (k, v) :: rest, key, val =>
    if k = key then (key, val) :: rest else (k, v) :: pset rest key val

/-- Python `del d[k]` for a key known to be present: remove the first binding
with that key.  (Callers model the `KeyError` for a missing key themselves.) -/
def perase {β : Type} : List (Nat × β) → Nat → List (Nat × β)
  | [], _ => []
  | (k, v) :: rest, key => if k = key then rest else (k, v) :: perase rest key

/-- Python `d.setdefault(k, val)`: keep the dict unchanged when `k` is
present, otherwise append `(k, val)`. -/
def psetdefault {β : Type} (m : List (Nat × β)) (key : Nat) (val : β) :
    List (Nat × β) :=
  match plookup m key with
  | some _ => m
  | none => m ++ [(key, val)]

/-- Python `d.keys()`, in insertion order. -/
def pkeys {β : Type} (m : List (Nat × β)) : List Nat := m.map Prod.fst

/-- Python `set.add` on a set modelled as a duplicate-free list. -/
def sadd (l : List Nat) (x : Nat) : List Nat := if x ∈ l then l else l ++ [x]

/-- The exceptions the source can raise: `KeyError` (spec: `VertexNotFound`),
`ValueError('No such edge: ...')` (spec: `EdgeNotFound`),
`ValueError('No path from ... to ...')` (spec: `PathNotFound`), and
`ValueError('Found negative weight cycles')` (spec:
`NegativeWeightCycleDetected`).  `nonTermination` marks a loop the Python
code would never leave; no proved statement produces it. -/
inductive PyErr where
  | keyError (v : Nat)
  | noSuchEdge (u v : Nat)
  | noPath (s e : Nat)
  | negCycle
  | nonTermination
deriving DecidableEq

/-- `float('inf')` together with finite numeric distances. -/
inductive DVal where
  | inf
  | fin (n : Int)
deriving DecidableEq

/-- Python `<` on distances, where `inf` compares greater than everything and
`inf < inf` is false. -/
def dvalLt : DVal → DVal → Bool
  | .inf, _ => false
  | .fin _, .inf => true
  | .fin a, .fin b => a < b

/-- Python `+` of a distance and a finite edge weight: `inf + w == inf`. -/
def dvalAdd : DVal → Int → DVal
  | .inf, _ => .inf
  | .fin a, w => .fin (a + w)

abbrev Inner : Type := List (Nat × Int)
abbrev Outer : Type := List (Nat × Inner)
abbrev VData : Type := List (Nat × Option Int)

/-- The state of a `DirectedGraph` object: the `defaultdict(dict)`
`outgoing_edges` and the plain dict `vertex_data`. -/
structure DirectedGraph where
  outgoing_edges : Outer
  vertex_data : VData
deriving DecidableEq

/-- `DirectedGraph()`. -/
def emptyGraph : DirectedGraph := ⟨[], []⟩

/-- `self.outgoing_edges[v]` on the `defaultdict(dict)`: return the inner
dict, first inserting an empty one when `v` is absent (auto-vivification).
Returns the read value together with the possibly mutated graph. -/
def getOutgoing (g : DirectedGraph) (v : Nat) : Inner × DirectedGraph :=
  match plookup g.outgoing_edges v with
  | some d => (d, g)
  | none => ([], { g with outgoing_edges := g.outgoing_edges ++ [(v, [])] })

/-- `add_vertex(self, v, value=None)`. -/
def add_vertex (g : DirectedGraph) (v : Nat) (value : Option Int) :
    DirectedGraph :=
  { g with vertex_data := pset g.vertex_data v value }

/-- `add_edge(self, u, v, weight)`: `setdefault` both endpoints into
`vertex_data`, then `self.outgoing_edges[u][v] = weight`. -/
def add_edge (g : DirectedGraph) (u v : Nat) (w : Int) : DirectedGraph :=
  let vd := psetdefault (psetdefault g.vertex_data u none) v none
  let (inner, g1) := getOutgoing { g with vertex_data := vd } u
  { g1 with outgoing_edges := pset g1.outgoing_edges u (pset inner v w) }

/-- `remove_vertex(self, v)`: `del self.outgoing_edges[v]` (a `KeyError` when
`v` has no outgoing-adjacency entry — `del` does not auto-vivify), then drop
every edge targeting `v` from the remaining inner dicts, then
`del self.vertex_data[v]` (a `KeyError` when `v` has no payload entry; the
adjacency mutations already made persist in that case). -/
def remove_vertex (g : DirectedGraph) (v : Nat) :
    Except PyErr Unit × DirectedGraph :=
  match plookup g.outgoing_edges v with
  | none => (.error (.keyError v), g)
  | some _ =>
    let og := (perase g.outgoing_edges v).map
      (fun p => (p.1, p.2.filter (fun q => q.1 ≠ v)))
    match plookup g.vertex_data v with
    | none => (.error (.keyError v), { g with outgoing_edges := og })
    | some _ =>
      (.ok (), { outgoing_edges := og, vertex_data := perase g.vertex_data v })

/-- `remove_edge(self, u, v)`: `del self.outgoing_edges[u][v]` inside
`try/except KeyError`.  The outer `[u]` read auto-vivifies; only the inner
`del` can raise, which the code converts to `ValueError('No such edge')`. -/
def remove_edge (g : DirectedGraph) (u v : Nat) :
    Except PyErr Unit × DirectedGraph :=
  let (inner, g1) := getOutgoing g u
  match plookup inner v with
  | some _ =>
    (.ok (), { g1 with outgoing_edges := pset g1.outgoing_edges u (perase inner v) })
  | none => (.error (.noSuchEdge u v), g1)

/-- `vertex_count(self)`. -/
def vertex_count (g : DirectedGraph) : Nat := g.vertex_data.length

/-- `edges(self)`: the `(source, destination, weight)` triples in iteration
order. -/
def edges (g : DirectedGraph) : List (Nat × Nat × Int) :=
  (g.outgoing_edges.map (fun p => p.2.map (fun q => (p.1, q.1, q.2)))).flatten

/-- `edge_count(self)`. -/
def edge_count (g : DirectedGraph) : Nat := (edges g).length

/-- `vertices(self)`. -/
def vertices (g : DirectedGraph) : List Nat := pkeys g.vertex_data

/-- `incident_edges(self, v, edge_type='outgoing')`: reads
`self.outgoing_edges[v]`, auto-vivifying it (the `except KeyError` branch is
dead code on a defaultdict). -/
def incident_edges_outgoing (g : DirectedGraph) (v : Nat) :
    List (Nat × Nat × Int) × DirectedGraph :=
  let (inner, g1) := getOutgoing g v
  (inner.map (fun q => (v, q.1, q.2)), g1)

/-- `incident_edges(self, v, edge_type='incoming')`: a pure scan. -/
def incident_edges_incoming (g : DirectedGraph) (v : Nat) :
    List (Nat × Nat × Int) :=
  (edges g).filter (fun t => t.2.1 = v)

/-- `edge_weight(self, u, v)`: `self.outgoing_edges[u][v]` inside
`try/except`; the outer read auto-vivifies, the inner read may raise. -/
def edge_weight (g : DirectedGraph) (u v : Nat) :
    Except PyErr Int × DirectedGraph :=
  let (inner, g1) := getOutgoing g u
  match plookup inner v with
  | some w => (.ok w, g1)
  | none => (.error (.noSuchEdge u v), g1)

/-- The value of `self.outgoing_edges[v]` ignoring the vivification side
effect (used to state read-only facts about neighbourhoods). -/
def nbrsMap (g : DirectedGraph) (v : Nat) : Inner :=
  (plookup g.outgoing_edges v).getD []

/-- The neighbour list of `v` as the traversals iterate it. -/
def nbrs (g : DirectedGraph) (v : Nat) : List Nat := (nbrsMap g v).map Prod.fst

/-- Fuel bound handed to the traversal loops; every loop in the source
terminates well below this bound (see the sufficiency lemmas). -/
def travFuel (g : DirectedGraph) : Nat :=
  4 * (((edges g).length + 2) * ((edges g).length + 2)) + 8

/-- The body of `breadth_first_search`'s inner `for node in current_level`
loop: mark each node visited, then append its still-unvisited neighbours to
`next_level` (auto-vivifying the node's adjacency read). -/
def bfs_level_step :
    DirectedGraph → List Nat → List Nat → List Nat →
    DirectedGraph × List Nat × List Nat
  | g, [], vis, next => (g, vis, next)
  | g, n :: rest, vis, next =>
    let vis1 := sadd vis n
    let (inner, g1) := getOutgoing g n
    let next1 := next ++ (inner.map Prod.fst).filter (fun x => x ∉ vis1)
    bfs_level_step g1 rest vis1 next1

/-- The `while current_level` loop of `breadth_first_search`. -/
def bfs_level_loop : Nat → DirectedGraph → List Nat → List Nat →
    List Nat × DirectedGraph
  | 0, g, vis, _ => (vis, g)
  | _ + 1, g, vis, [] => (vis, g)
  | f + 1, g, vis, n :: rest =>
    let (g1, vis1, next) := bfs_level_step g (n :: rest) vis []
    bfs_level_loop f g1 vis1 next

/-- `breadth_first_search(self, v)` (level-batched; marks on processing). -/
def breadth_first_search (g : DirectedGraph) (v : Nat) :
    List Nat × DirectedGraph :=
  bfs_level_loop (travFuel g) g [] [v]

/-- The body of `breadth_first_search_queue`'s neighbour loop: mark and
enqueue each unvisited neighbour. -/
def bfsq_inner : List Nat → List Nat → List Nat → List Nat × List Nat
  | [], vis, q => (vis, q)
  | n :: rest, vis, q =>
    if n ∈ vis then bfsq_inner rest vis q
    else bfsq_inner rest (vis ++ [n]) (q ++ [n])

/-- The `while queue` loop of `breadth_first_search_queue`. -/
def bfsq_loop : Nat → DirectedGraph → List Nat → List Nat →
    List Nat × DirectedGraph
  | 0, g, vis, _ => (vis, g)
  | _ + 1, g, vis, [] => (vis, g)
  | f + 1, g, vis, v :: q =>
    let (inner, g1) := getOutgoing g v
    let (vis1, q1) := bfsq_inner (inner.map Prod.fst) vis q
    bfsq_loop f g1 vis1 q1

/-- `breadth_first_search_queue(self, v)` (marks on enqueue). -/
def breadth_first_search_queue (g : DirectedGraph) (v : Nat) :
    List Nat × DirectedGraph :=
  bfsq_loop (travFuel g) g [v] [v]

/-- `depth_first_search(self, v, visited)`: recursive DFS.  The fold threads
the shared `visited` set (and the vivified graph) through the recursive
calls made for each still-unvisited neighbour. -/
def dfs_go : Nat → Nat → DirectedGraph → List Nat → List Nat × DirectedGraph
  | 0, _, g, vis => (vis, g)
  | f + 1, v, g, vis =>
    let vis1 := sadd vis v
    let (inner, g1) := getOutgoing g v
    (inner.map Prod.fst).foldl
      (fun st n => if n ∈ st.1 then st else dfs_go f n st.2 st.1)
      (vis1, g1)

/-- `depth_first_search(self, v)` with the default fresh `visited` set. -/
def depth_first_search (g : DirectedGraph) (v : Nat) :
    List Nat × DirectedGraph :=
  dfs_go (travFuel g) v g []

/-- The `while stack` loop of `depth_first_search_iterate`: pop from the
right, mark, push unvisited neighbours (list head is the stack top). -/
def dfsit_loop : Nat → DirectedGraph → List Nat → List Nat →
    List Nat × DirectedGraph
  | 0, g, vis, _ => (vis, g)
  | _ + 1, g, vis, [] => (vis, g)
  | f + 1, g, vis, v :: st =>
    let vis1 := sadd vis v
    let (inner, g1) := getOutgoing g v
    let st1 := (inner.map Prod.fst).foldl
      (fun s n => if n ∈ vis1 then s else n :: s) st
    dfsit_loop f g1 vis1 st1

/-- `depth_first_search_iterate(self, v)`. -/
def depth_first_search_iterate (g : DirectedGraph) (v : Nat) :
    List Nat × DirectedGraph :=
  dfsit_loop (travFuel g) g [] [v]

/-- Python `backtracks.get(end)`: `None` both for a missing key and for a
stored `None`. -/
def dget (bt : List (Nat × Option Nat)) (k : Nat) : Option Nat :=
  (plookup bt k).getD none

/-- The `while last_step:` loop of `construct_path`.  Python tests
truthiness, so the loop also stops when `last_step` is the falsy vertex `0`;
`backtracks[last_step]` is a raw read that raises `KeyError` when the key is
missing.  The accumulated list holds the Python `backtrack_path` in reverse
(most recently appended element first). -/
def construct_path_go (bt : List (Nat × Option Nat)) :
    Nat → List Nat → Option Nat → Except PyErr (List Nat)
  | _, path, none => .ok path
  | fuel, path, some v =>
    if v = 0 then .ok path
    else
      match fuel with
      | 0 => .error .nonTermination
      | f + 1 =>
        match plookup bt v with
        | some nxt => construct_path_go bt f (v :: path) nxt
        | none => .error (.keyError v)

/-- `construct_path(self, backtracks, start, end)`. -/
def construct_path (bt : List (Nat × Option Nat)) (start e : Nat) :
    Except PyErr (List Nat) :=
  match construct_path_go bt (bt.length + 1) [e] (dget bt e) with
  | .error err => .error err
  | .ok path =>
    match path with
    | [] => .error (.noPath start e)
    | h :: t => if h = start then .ok (h :: t) else .error (.noPath start e)

/-- The initial backtrack map `{v: None for v in self.vertex_data.keys()}`. -/
def btInit (g : DirectedGraph) : List (Nat × Option Nat) :=
  g.vertex_data.map (fun p => (p.1, (none : Option Nat)))

/-- The initial distance map: every vertex at `float('inf')`, then
`distances[start] = 0`. -/
def distInit (g : DirectedGraph) (start : Nat) : List (Nat × DVal) :=
  pset (g.vertex_data.map (fun p => (p.1, DVal.inf))) start (.fin 0)

/-- The `for neighbor in self.outgoing_edges[v].keys()` loop of
`find_shortest_path_bfs`: mark, enqueue and record the predecessor of each
unvisited neighbour; `raise NestedBreak` (flag `true`) once `end` is
discovered. -/
def bfs_sp_inner (v e : Nat) :
    List Nat → List Nat → List Nat → List (Nat × Option Nat) →
    List Nat × List Nat × List (Nat × Option Nat) × Bool
  | [], vis, q, bt => (vis, q, bt, false)
  | n :: rest, vis, q, bt =>
    if n ∈ vis then bfs_sp_inner v e rest vis q bt
    else
      let vis1 := vis ++ [n]
      let q1 := q ++ [n]
      let bt1 := pset bt n (some v)
      if n = e then (vis1, q1, bt1, true)
      else bfs_sp_inner v e rest vis1 q1 bt1

/-- The `while queue` loop of `find_shortest_path_bfs`; the Boolean from the
inner loop models the `NestedBreak` escape. -/
def bfs_sp_loop (e : Nat) :
    Nat → DirectedGraph → List Nat → List Nat → List (Nat × Option Nat) →
    DirectedGraph × List (Nat × Option Nat)
  | 0, g, _, _, bt => (g, bt)
  | _ + 1, g, _, [], bt => (g, bt)
  | f + 1, g, vis, v :: q, bt =>
    let (inner, g1) := getOutgoing g v
    let r := bfs_sp_inner v e (inner.map Prod.fst) vis q bt
    if r.2.2.2 then (g1, r.2.2.1)
    else bfs_sp_loop e f g1 r.1 r.2.1 r.2.2.1

/-- `find_shortest_path_bfs(self, start, end)`. -/
def find_shortest_path_bfs (g : DirectedGraph) (s e : Nat) :
    Except PyErr (List Nat) × DirectedGraph :=
  let (g1, bt) := bfs_sp_loop e (travFuel g) g [s] [s] (btInit g)
  (construct_path bt s e, g1)

/-- Strict lexicographic order on `heapq` entries `(distance, vertex)`. -/
def lexLt (a b : Int × Nat) : Bool :=
  a.1 < b.1 || (a.1 = b.1 && a.2 < b.2)

/-- The smallest entry of a non-empty heap (`heapq.heappop`'s return value). -/
def heapMin (x : Int × Nat) (xs : List (Int × Nat)) : Int × Nat :=
  xs.foldl (fun acc y => if lexLt y acc then y else acc) x

/-- Remove the first occurrence of a value from the heap list. -/
def removeFirst : List (Int × Nat) → (Int × Nat) → List (Int × Nat)
  | [], _ => []
  | x :: xs, y => if x = y then xs else x :: removeFirst xs y

/-- `heapq.heappop`: extract the lexicographically smallest entry.  Entries
are pairwise distinct values in every run (a re-push strictly lowers the
distance), so extracting the smallest value is exactly what `heapq` does. -/
def heapPop : List (Int × Nat) → Option ((Int × Nat) × List (Int × Nat))
  | [] => none
  | x :: xs =>
    let m := heapMin x xs
    some (m, removeFirst (x :: xs) m)

/-- The `for des, weight in self.outgoing_edges[src].items()` loop of
Dijkstra: skip visited destinations, raise `KeyError` when `distances[des]`
is missing, otherwise relax and push. -/
def dij_relax (src : Nat) (sd : Int) :
    Inner → List Nat → List (Nat × DVal) → List (Nat × Option Nat) →
    List (Int × Nat) →
    Except PyErr (List (Nat × DVal) × List (Nat × Option Nat) × List (Int × Nat))
  | [], _, dist, bt, heap => .ok (dist, bt, heap)
  | (des, w) :: rest, vis, dist, bt, heap =>
    if des ∈ vis then dij_relax src sd rest vis dist bt heap
    else
      match plookup dist des with
      | none => .error (.keyError des)
      | some dv =>
        if dvalLt (.fin (sd + w)) dv then
          dij_relax src sd rest vis (pset dist des (.fin (sd + w)))
            (pset bt des (some src)) (heap ++ [(sd + w, des)])
        else dij_relax src sd rest vis dist bt heap

/-- Fuel bound for the Dijkstra loop; far above what any run can use. -/
def dijFuel (g : DirectedGraph) : Nat :=
  (((edges g).length + 2) * ((edges g).length + g.vertex_data.length + 3)) + 5

/-- The `while min_heap` loop of `find_shortest_path_dijkstra`: pop the
minimum, mark it visited (also on stale pops), then relax its out-edges. -/
def dij_loop :
    Nat → DirectedGraph → List Nat → List (Int × Nat) → List (Nat × DVal) →
    List (Nat × Option Nat) →
    Except PyErr (List (Nat × Option Nat)) × DirectedGraph
  | 0, g, _, _, _, bt => (.ok bt, g)
  | f + 1, g, vis, heap, dist, bt =>
    match heapPop heap with
    | none => (.ok bt, g)
    | some ((sd, src), heap1) =>
      let vis1 := sadd vis src
      let (inner, g1) := getOutgoing g src
      match dij_relax src sd inner vis1 dist bt heap1 with
      | .error err => (.error err, g1)
      | .ok (dist1, bt1, heap2) => dij_loop f g1 vis1 heap2 dist1 bt1

/-- `find_shortest_path_dijkstra(self, start, end)`. -/
def find_shortest_path_dijkstra (g : DirectedGraph) (s e : Nat) :
    Except PyErr (List Nat) × DirectedGraph :=
  match dij_loop (dijFuel g) g [] [(0, s)] (distInit g s) (btInit g) with
  | (.error err, g1) => (.error err, g1)
  | (.ok bt, g1) => (construct_path bt s e, g1)

/-- One Bellman-Ford pass over `self.edges()`: when an edge still relaxes on
the final pass (`isLast`), raise `ValueError('Found negative weight
cycles')` instead of applying the update; raw `distances[...]` reads raise
`KeyError` when the key is missing. -/
def bf_edge_fold (isLast : Bool) :
    List (Nat × Nat × Int) → List (Nat × DVal) → List (Nat × Option Nat) →
    Except PyErr (List (Nat × DVal) × List (Nat × Option Nat))
  | [], dist, bt => .ok (dist, bt)
  | (src, des, w) :: rest, dist, bt =>
    match plookup dist src with
    | none => .error (.keyError src)
    | some dsrc =>
      match plookup dist des with
      | none => .error (.keyError des)
      | some ddes =>
        if dvalLt (dvalAdd dsrc w) ddes then
          if isLast then .error .negCycle
          else bf_edge_fold isLast rest (pset dist des (dvalAdd dsrc w))
            (pset bt des (some src))
        else bf_edge_fold isLast rest dist bt

/-- The `for i in range(vertex_count)` loop of Bellman-Ford, counting the
remaining passes downward: `k + 1` passes remain, and `k = 0` is the final
pass (`i == vertex_count - 1`). -/
def bf_loop (es : List (Nat × Nat × Int)) :
    Nat → List (Nat × DVal) → List (Nat × Option Nat) →
    Except PyErr (List (Nat × DVal) × List (Nat × Option Nat))
  | 0, dist, bt => .ok (dist, bt)
  | k + 1, dist, bt =>
    match bf_edge_fold (k = 0) es dist bt with
    | .error err => .error err
    | .ok (dist1, bt1) => bf_loop es k dist1 bt1

/-- `find_shortest_path_bellman_ford(self, start, end)`.  The routine reads
the graph only through `vertex_data.keys()`, `vertex_count()` and `edges()`,
none of which mutate it, so no graph state is returned. -/
def find_shortest_path_bellman_ford (g : DirectedGraph) (s e : Nat) :
    Except PyErr (List Nat) :=
  match bf_loop (edges g) (vertex_count g) (distInit g s) (btInit g) with
  | .error err => .error err
  | .ok (_, bt) => construct_path bt s e

/-- Total weight of a vertex sequence read off against the graph's stored
edge weights (`None` when some consecutive pair is not an edge). -/
def pathWeight (g : DirectedGraph) : List Nat → Option Int
  | [] => some 0
  | [_] => some 0
  | a :: b :: rest =>
    match plookup (nbrsMap g a) b with
    | some w => (pathWeight g (b :: rest)).map (fun t => w + t)
    | none => none

/-- All stored edge weights are non-negative (decidable form). -/
def nonNegWeights (g : DirectedGraph) : Bool :=
  (edges g).all (fun t => decide (0 ≤ t.2.2))

/-- The stored weight of the edge `u → v`, when present. -/
def edgeLookup (g : DirectedGraph) (u v : Nat) : Option Int :=
  (plookup g.outgoing_edges u).bind (fun inner => plookup inner v)

/-- The `(source, destination, weight)` triples contributed by one
adjacency entry. -/
def triplesOf (k : Nat) (inner : Inner) : List (Nat × Nat × Int) :=
  inner.map (fun q => (k, q.1, q.2))

/-- `edges` as a function of the outgoing-adjacency list alone. -/
def edgesOf (m : Outer) : List (Nat × Nat × Int) :=
  (m.map (fun p => triplesOf p.1 p.2)).flatten

/-- Well-formedness every Python-reachable state enjoys: dicts have no
duplicate keys. -/
def WF (g : DirectedGraph) : Prop :=
  (pkeys g.outgoing_edges).Nodup ∧
  (∀ p ∈ g.outgoing_edges, (pkeys p.2).Nodup) ∧
  (pkeys g.vertex_data).Nodup

instance : DecidablePred WF := fun g => by
  unfold WF; infer_instance

/-- `g'` differs from `g` at most by auto-vivified empty adjacency entries:
the vertex dict, the produced edge triples and every neighbourhood read are
unchanged, and well-formedness carries over. -/
def Viv (g g' : DirectedGraph) : Prop :=
  g'.vertex_data = g.vertex_data ∧ edges g' = edges g ∧
  (∀ x, nbrsMap g' x = nbrsMap g x) ∧ (WF g → WF g')

/-- One call against the store: every public operation of the class,
mutating or reading (the readers still thread the store because of
defaultdict auto-vivification). -/
inductive Op where
  | addVertexOp (v : Nat) (val : Option Int)
  | addEdgeOp (u v : Nat) (w : Int)
  | removeVertexOp (v : Nat)
  | removeEdgeOp (u v : Nat)
  | bfsOp (v : Nat)
  | bfsQueueOp (v : Nat)
  | dfsOp (v : Nat)
  | dfsIterOp (v : Nat)
  | spBfsOp (s e : Nat)
  | spDijkstraOp (s e : Nat)
  | spBellmanOp (s e : Nat)
  | incidentOutOp (v : Nat)
  | incidentInOp (v : Nat)
  | edgeWeightOp (u v : Nat)
  | edgesOp
  | verticesOp
  | vertexCountOp
  | edgeCountOp

/-- The store state after executing one operation (for a failing call, the
state at the moment the exception propagates).  `spBellmanOp`,
`incidentInOp`, `edgesOp`, `verticesOp`, `vertexCountOp` and `edgeCountOp`
never perform a defaultdict `[]`-access, so they leave the state alone. -/
def applyOp (g : DirectedGraph) : Op → DirectedGraph
  | .addVertexOp v val => add_vertex g v val
  | .addEdgeOp u v w => add_edge g u v w
  | .removeVertexOp v => (remove_vertex g v).2
  | .removeEdgeOp u v => (remove_edge g u v).2
  | .bfsOp v => (breadth_first_search g v).2
  | .bfsQueueOp v => (breadth_first_search_queue g v).2
  | .dfsOp v => (depth_first_search g v).2
  | .dfsIterOp v => (depth_first_search_iterate g v).2
  | .spBfsOp s e => (find_shortest_path_bfs g s e).2
  | .spDijkstraOp s e => (find_shortest_path_dijkstra g s e).2
  | .spBellmanOp _ _ => g
  | .incidentOutOp v => (incident_edges_outgoing g v).2
  | .incidentInOp _ => g
  | .edgeWeightOp u v => (edge_weight g u v).2
  | .edgesOp => g
  | .verticesOp => g
  | .vertexCountOp => g
  | .edgeCountOp => g

/-- The store after a whole call sequence, starting from `DirectedGraph()`. -/
def runOps (ops : List Op) : DirectedGraph := ops.foldl applyOp emptyGraph

/-- The C8 invariant: dicts are duplicate-free and every produced edge
triple has both endpoints in the vertex set. -/
def Inv (g : DirectedGraph) : Prop :=
  WF g ∧ ∀ t ∈ edges g, t.1 ∈ vertices g ∧ t.2.1 ∈ vertices g

instance : DecidablePred Inv := fun g => by
  unfold Inv; infer_instance

/-- All edge destinations: beyond its start vertex, a traversal can only
ever touch these. -/
def allDest (g : DirectedGraph) : List Nat :=
  (edges g).map (fun t => t.2.1)

/-- Reachability along the stored adjacency (`η x` lists the successors the
loops iterate for `x`). -/
inductive Reach (η : Nat → List Nat) : Nat → Nat → Prop where
  | refl (v : Nat) : Reach η v v
  | tail {u v w : Nat} : Reach η u v → w ∈ η v → Reach η u w

/-- Ghost twin of `bfs_level_step` over a fixed successor function: the
graph state only evolves by vivification, which never changes a
neighbourhood, so the visited-set computation factors through this pure
version. -/
def bfsLevelStepP (η : Nat → List Nat) :
    List Nat → List Nat → List Nat → List Nat × List Nat
  | [], vis, next => (vis, next)
  | n :: rest, vis, next =>
    let vis1 := sadd vis n
    bfsLevelStepP η rest vis1 (next ++ (η n).filter (fun x => x ∉ vis1))

/-- Ghost twin of `bfs_level_loop`. -/
def bfsLevelLoopP (η : Nat → List Nat) : Nat → List Nat → List Nat → List Nat
  | 0, vis, _ => vis
  | _ + 1, vis, [] => vis
  | f + 1, vis, n :: rest =>
    let pr := bfsLevelStepP η (n :: rest) vis []
    bfsLevelLoopP η f pr.1 pr.2

/-- Ghost twin of `bfsq_loop`. -/
def bfsqLoopP (η : Nat → List Nat) : Nat → List Nat → List Nat → List Nat
  | 0, vis, _ => vis
  | _ + 1, vis, [] => vis
  | f + 1, vis, v :: q =>
    let pr := bfsq_inner (η v) vis q
    bfsqLoopP η f pr.1 pr.2

/-- Ghost twin of `dfs_go`. -/
def dfsGoP (η : Nat → List Nat) : Nat → Nat → List Nat → List Nat
  | 0, _, vis => vis
  | f + 1, v, vis =>
    (η v).foldl (fun vis1 n => if n ∈ vis1 then vis1 else dfsGoP η f n vis1)
      (sadd vis v)

/-- Ghost twin of `dfsit_loop`. -/
def dfsitLoopP (η : Nat → List Nat) : Nat → List Nat → List Nat → List Nat
  | 0, vis, _ => vis
  | _ + 1, vis, [] => vis
  | f + 1, vis, v :: st =>
    let vis1 := sadd vis v
    dfsitLoopP η f vis1
      ((η v).foldl (fun s n => if n ∈ vis1 then s else n :: s) st)

/-- A `distances` read made total: a missing key reads as infinity (the
closure lemmas show the source only ever reads present keys). -/
def dlook (dist : List (Nat × DVal)) (x : Nat) : DVal :=
  (plookup dist x).getD .inf

/-- Non-strict order on distances, `inf` greatest. -/
def DvLe : DVal → DVal → Prop
  | _, .inf => True
  | .inf, .fin _ => False
  | .fin a, .fin b => a ≤ b

/-- `IsWalk g a l b c`: starting from `a`, the successive vertices `l`
follow stored edges (first-match adjacency reads, as every algorithm reads
them), end at `b`, and the stored weights sum to `c`.  `l = []` is the empty
walk: `b = a` and `c = 0`. -/
def IsWalk (g : DirectedGraph) : Nat → List Nat → Nat → Int → Prop
  | a, [], b, c => b = a ∧ c = 0
  | a, x :: rest, b, c =>
    ∃ w c', plookup (nbrsMap g a) x = some w ∧ IsWalk g x rest b c' ∧
      c = w + c'

/-- No closed walk starting at a vertex reachable from `s` has negative
total weight.  This is the spec's "no negative-weight cycle is reachable
from `s`": a negative closed walk contains a negative cycle, and a cycle is
a closed walk. -/
def NoNegClosed (g : DirectedGraph) (s : Nat) : Prop :=
  ∀ (u : Nat) (l : List Nat) (c : Int),
    Reach (nbrs g) s u → IsWalk g u l u c → 0 ≤ c

/-- A graph holding the single vertex `1`, added with `add_vertex` only. -/
def vOnlyGraph : DirectedGraph := add_vertex emptyGraph 1 none

/-- The graph with the single edge `0 → 1` (weight 1); the source vertex is
the Python-falsy identifier `0`. -/
def eGraph01 : DirectedGraph := add_edge emptyGraph 0 1 1

/-- The spec's negative-cycle scenario: `A → B` weight `-3` and `B → A`
weight `1`, with `A = 1`, `B = 2`. -/
def negCycleGraph : DirectedGraph :=
  add_edge (add_edge emptyGraph 1 2 (-3)) 2 1 1

/-- The chain `1 → 2 → 3`, both edges of weight 1. -/
def chainGraph : DirectedGraph :=
  add_edge (add_edge emptyGraph 1 2 1) 2 3 1

/-- The spec's Dijkstra scenario with `A,B,C,D = 1,2,3,4`: edges `A→B(1)`,
`B→C(2)`, `A→C(4)`, `C→D(1)`, added in that order. -/
def diamondGraph : DirectedGraph :=
  add_edge (add_edge (add_edge (add_edge emptyGraph 1 2 1) 2 3 2) 1 3 4) 3 4 1

/-- A non-negative graph with two equal-weight routes `1 → 3`: edges added in
the order `1→0(2)`, `0→3(2)`, `1→2(1)`, `2→3(3)`, so Bellman-Ford's edge
scan records the route through the falsy vertex `0` first while Dijkstra
records the route through `2`. -/
def tieGraph : DirectedGraph :=
  add_edge (add_edge (add_edge (add_edge emptyGraph 1 0 2) 0 3 2) 1 2 1) 2 3 3

/-- Two isolated vertices `1` and `2`, added with `add_vertex` only. -/
def twoVertexGraph : DirectedGraph :=
  add_vertex (add_vertex emptyGraph 1 none) 2 none

/-! ### Association-list lemmas -/

theorem plookup_append_some {β : Type} {m : List (Nat × β)} {k : Nat} {v : β}
    (n : List (Nat × β)) (h : plookup m k = some v) :
    plookup (m ++ n) k = some v := by
  induction m with
  | nil => simp [plookup] at h
  | cons p rest ih =>
    by_cases hk : p.1 = k
    · simp [plookup, hk] at h ⊢; exact h
    · simp [plookup, hk] at h ⊢; exact ih h

theorem plookup_append_none {β : Type} {m : List (Nat × β)} {k : Nat}
    (n : List (Nat × β)) (h : plookup m k = none) :
    plookup (m ++ n) k = plookup n k := by
  induction m with
  | nil => simp
  | cons p rest ih =>
    by_cases hk : p.1 = k
    · simp [plookup, hk] at h
    · simp [plookup, hk] at h ⊢; exact ih h

@[simp] theorem pkeys_nil {β : Type} : pkeys ([] : List (Nat × β)) = [] := rfl

@[simp] theorem pkeys_cons {β : Type} (p : Nat × β) (m : List (Nat × β)) :
    pkeys (p :: m) = p.1 :: pkeys m := rfl

@[simp] theorem pkeys_append {β : Type} (m n : List (Nat × β)) :
    pkeys (m ++ n) = pkeys m ++ pkeys n := by
  simp [pkeys]

theorem plookup_mem {β : Type} {m : List (Nat × β)} {k : Nat} {v : β}
    (h : plookup m k = some v) : (k, v) ∈ m := by
  induction m with
  | nil => simp [plookup] at h
  | cons p rest ih =>
    cases p with
    | mk a b =>
      by_cases hk : a = k
      · subst hk
        simp [plookup] at h
        subst h
        exact List.mem_cons_self _ _
      · simp [plookup, hk] at h
        exact List.mem_cons_of_mem _ (ih h)

theorem plookup_eq_none_iff {β : Type} {m : List (Nat × β)} {k : Nat} :
    plookup m k = none ↔ k ∉ pkeys m := by
  induction m with
  | nil => simp [plookup, pkeys]
  | cons p rest ih =>
    by_cases hk : p.1 = k
    · simp [plookup, hk, pkeys]
    · simp only [plookup, hk, if_false, ih, pkeys, List.map_cons, List.mem_cons]
      constructor
      · intro h hh
        rcases hh with hh | hh
        · exact hk hh.symm
        · exact h hh
      · intro h hh
        exact h (Or.inr hh)

theorem plookup_isSome_iff {β : Type} {m : List (Nat × β)} {k : Nat} :
    (plookup m k).isSome ↔ k ∈ pkeys m := by
  induction m with
  | nil => simp [plookup]
  | cons p rest ih =>
    cases p with
    | mk a b =>
      by_cases hk : a = k
      · subst hk
        simp [plookup]
      · simp only [plookup, hk, if_false, ih, pkeys_cons, List.mem_cons]
        constructor
        · exact fun h => Or.inr h
        · rintro (h | h)
          · exact absurd h.symm hk
          · exact h

theorem plookup_of_mem_nodup {β : Type} {m : List (Nat × β)}
    (hnd : (pkeys m).Nodup) {p : Nat × β} (hp : p ∈ m) :
    plookup m p.1 = some p.2 := by
  induction m with
  | nil => simp at hp
  | cons q rest ih =>
    simp only [pkeys_cons, List.nodup_cons] at hnd
    rcases List.mem_cons.mp hp with hp | hp
    · subst hp
      simp [plookup]
    · have hne : q.1 ≠ p.1 := by
        intro hh
        exact hnd.1 (hh ▸ List.mem_map_of_mem Prod.fst hp)
      simp [plookup, hne, ih hnd.2 hp]

theorem plookup_pset_self {β : Type} (m : List (Nat × β)) (k : Nat) (v : β) :
    plookup (pset m k v) k = some v := by
  induction m with
  | nil => simp [pset, plookup]
  | cons p rest ih =>
    by_cases hk : p.1 = k
    · cases p
      simp only at hk
      simp [pset, hk, plookup]
    · cases p
      simp only at hk
      simp [pset, hk, plookup, ih]

theorem plookup_pset_ne {β : Type} (m : List (Nat × β)) {k k' : Nat} (v : β)
    (h : k' ≠ k) : plookup (pset m k v) k' = plookup m k' := by
  have h2 : ¬(k = k') := fun hh => h hh.symm
  induction m with
  | nil => simp [pset, plookup, h2]
  | cons p rest ih =>
    cases p with
    | mk a b =>
      by_cases hk : a = k
      · subst hk
        simp [pset, plookup, h2]
      · simp [pset, plookup, hk, ih]

theorem pset_eq_append {β : Type} {m : List (Nat × β)} {k : Nat} (v : β)
    (h : plookup m k = none) : pset m k v = m ++ [(k, v)] := by
  induction m with
  | nil => simp [pset]
  | cons p rest ih =>
    cases p with
    | mk a b =>
      by_cases hk : a = k
      · simp [plookup, hk] at h
      · simp only [plookup, hk, if_false] at h
        simp [pset, hk, ih h]

theorem mem_pset {β : Type} {m : List (Nat × β)} {k : Nat} {w : β}
    (hnd : (pkeys m).Nodup) :
    ∀ p, p ∈ pset m k w ↔ (p = (k, w) ∨ (p ∈ m ∧ p.1 ≠ k)) := by
  induction m with
  | nil =>
    intro p
    simp only [pset, List.mem_singleton, List.not_mem_nil, false_and, or_false]
  | cons q rest ih =>
    intro p
    simp only [pkeys_cons, List.nodup_cons] at hnd
    cases q with
    | mk a b =>
      by_cases hk : a = k
      · subst hk
        have hps : pset ((a, b) :: rest) a w = (a, w) :: rest := by
          simp [pset]
        rw [hps, List.mem_cons, List.mem_cons]
        constructor
        · rintro (h | h)
          · exact Or.inl h
          · refine Or.inr ⟨Or.inr h, ?_⟩
            intro hh
            apply hnd.1
            rw [← hh]
            have hmem := List.mem_map_of_mem Prod.fst h
            exact hmem
        · rintro (h | ⟨h | h, hne⟩)
          · exact Or.inl h
          · exact absurd (by rw [h]) hne
          · exact Or.inr h
      · have hps : pset ((a, b) :: rest) k w = (a, b) :: pset rest k w := by
          simp [pset, hk]
        rw [hps, List.mem_cons, List.mem_cons, ih hnd.2 p]
        constructor
        · rintro (h | h | ⟨h, hne⟩)
          · refine Or.inr ⟨Or.inl h, ?_⟩
            rw [h]
            exact hk
          · exact Or.inl h
          · exact Or.inr ⟨Or.inr h, hne⟩
        · rintro (h | ⟨h | h, hne⟩)
          · exact Or.inr (Or.inl h)
          · exact Or.inl h
          · exact Or.inr (Or.inr ⟨h, hne⟩)

theorem mem_perase {β : Type} {m : List (Nat × β)} {k : Nat}
    (hnd : (pkeys m).Nodup) :
    ∀ p, p ∈ perase m k ↔ (p ∈ m ∧ p.1 ≠ k) := by
  induction m with
  | nil => intro p; simp [perase]
  | cons q rest ih =>
    intro p
    simp only [pkeys_cons, List.nodup_cons] at hnd
    cases q with
    | mk a b =>
      by_cases hk : a = k
      · subst hk
        have hpe : perase ((a, b) :: rest) a = rest := by simp [perase]
        rw [hpe, List.mem_cons]
        constructor
        · intro h
          refine ⟨Or.inr h, ?_⟩
          intro hh
          apply hnd.1
          rw [← hh]
          have hmem := List.mem_map_of_mem Prod.fst h
          exact hmem
        · rintro ⟨h | h, hne⟩
          · exact absurd (by rw [h]) hne
          · exact h
      · have hpe : perase ((a, b) :: rest) k = (a, b) :: perase rest k := by
          simp [perase, hk]
        rw [hpe, List.mem_cons, List.mem_cons, ih hnd.2 p]
        constructor
        · rintro (h | ⟨h, hne⟩)
          · refine ⟨Or.inl h, ?_⟩
            rw [h]
            exact hk
          · exact ⟨Or.inr h, hne⟩
        · rintro ⟨h | h, hne⟩
          · exact Or.inl h
          · exact Or.inr ⟨h, hne⟩

theorem pkeys_pset_of_mem {β : Type} {m : List (Nat × β)} {k : Nat} (v : β)
    (h : k ∈ pkeys m) : pkeys (pset m k v) = pkeys m := by
  induction m with
  | nil => simp at h
  | cons p rest ih =>
    cases p with
    | mk a b =>
      by_cases hk : a = k
      · subst hk
        simp only [pset, if_pos rfl]
        rfl
      · simp only [pkeys_cons, List.mem_cons] at h
        rcases h with h | h
        · exact absurd h.symm hk
        · simp [pset, hk, ih h]

theorem pkeys_psetdefault {β : Type} (m : List (Nat × β)) (k : Nat) (v : β) :
    pkeys (psetdefault m k v) =
      if k ∈ pkeys m then pkeys m else pkeys m ++ [k] := by
  unfold psetdefault
  cases hh : plookup m k with
  | some w =>
    have hk : k ∈ pkeys m := plookup_isSome_iff.mp (by rw [hh]; rfl)
    simp [hk]
  | none =>
    have hk : k ∉ pkeys m := plookup_eq_none_iff.mp hh
    simp [hk]

theorem plookup_psetdefault_self {β : Type} (m : List (Nat × β)) (k : Nat)
    (v : β) :
    plookup (psetdefault m k v) k = some ((plookup m k).getD v) := by
  unfold psetdefault
  cases hh : plookup m k with
  | some w => simp [hh]
  | none => simp [plookup_append_none _ hh, plookup]

theorem plookup_psetdefault_ne {β : Type} (m : List (Nat × β)) {k k' : Nat}
    (v : β) (h : k' ≠ k) :
    plookup (psetdefault m k v) k' = plookup m k' := by
  unfold psetdefault
  cases hh : plookup m k with
  | some w => rfl
  | none =>
    cases hk' : plookup m k' with
    | some w' => exact plookup_append_some _ hk'
    | none =>
      rw [plookup_append_none _ hk']
      have h2 : ¬(k = k') := fun hh2 => h hh2.symm
      simp [plookup, h2]

/-! ### Edge-list lemmas -/

theorem edges_eq_edgesOf (g : DirectedGraph) :
    edges g = edgesOf g.outgoing_edges := rfl

@[simp] theorem edgesOf_nil : edgesOf [] = [] := rfl

@[simp] theorem edgesOf_cons (p : Nat × Inner) (m : Outer) :
    edgesOf (p :: m) = triplesOf p.1 p.2 ++ edgesOf m := rfl

@[simp] theorem edgesOf_append (m n : Outer) :
    edgesOf (m ++ n) = edgesOf m ++ edgesOf n := by
  simp [edgesOf]

@[simp] theorem triplesOf_nil (k : Nat) : triplesOf k [] = [] := rfl

theorem mem_triplesOf {t : Nat × Nat × Int} {k : Nat} {inner : Inner} :
    t ∈ triplesOf k inner ↔ ∃ q ∈ inner, t = (k, q.1, q.2) := by
  unfold triplesOf
  constructor
  · intro h
    obtain ⟨q, hq, rfl⟩ := List.mem_map.mp h
    exact ⟨q, hq, rfl⟩
  · rintro ⟨q, hq, rfl⟩
    exact List.mem_map_of_mem _ hq

theorem mem_triplesOf_src {t : Nat × Nat × Int} {k : Nat} {inner : Inner}
    (h : t ∈ triplesOf k inner) : t.1 = k := by
  obtain ⟨q, _, rfl⟩ := mem_triplesOf.mp h
  rfl

theorem mem_edgesOf {t : Nat × Nat × Int} {m : Outer} :
    t ∈ edgesOf m ↔ ∃ p ∈ m, ∃ q ∈ p.2, t = (p.1, q.1, q.2) := by
  induction m with
  | nil => simp
  | cons p rest ih =>
    simp only [edgesOf_cons, List.mem_append, ih, List.mem_cons]
    constructor
    · rintro (h | ⟨p', hp', q, hq, rfl⟩)
      · obtain ⟨q, hq, rfl⟩ := mem_triplesOf.mp h
        exact ⟨p, Or.inl rfl, q, hq, rfl⟩
      · exact ⟨p', Or.inr hp', q, hq, rfl⟩
    · rintro ⟨p', hp' | hp', q, hq, rfl⟩
      · subst hp'
        exact Or.inl (mem_triplesOf.mpr ⟨q, hq, rfl⟩)
      · exact Or.inr ⟨p', hp', q, hq, rfl⟩

theorem mem_edgesOf_src {t : Nat × Nat × Int} {m : Outer}
    (h : t ∈ edgesOf m) : t.1 ∈ pkeys m := by
  obtain ⟨p, hp, q, hq, rfl⟩ := mem_edgesOf.mp h
  exact List.mem_map_of_mem Prod.fst hp

/-! ### Vivification lemmas -/

theorem viv_refl (g : DirectedGraph) : Viv g g :=
  ⟨rfl, rfl, fun _ => rfl, id⟩

theorem viv_trans {a b c : DirectedGraph} (h1 : Viv a b) (h2 : Viv b c) :
    Viv a c :=
  ⟨h2.1.trans h1.1, h2.2.1.trans h1.2.1,
   fun x => (h2.2.2.1 x).trans (h1.2.2.1 x),
   fun h => h2.2.2.2 (h1.2.2.2 h)⟩

theorem nodup_append_singleton {l : List Nat} {k : Nat} (h : l.Nodup)
    (hk : k ∉ l) : (l ++ [k]).Nodup := by
  rw [List.nodup_append]
  refine ⟨h, List.nodup_singleton k, ?_⟩
  intro a ha hb
  rw [List.mem_singleton] at hb
  exact hk (hb ▸ ha)

theorem getOutgoing_fst (g : DirectedGraph) (v : Nat) :
    (getOutgoing g v).1 = nbrsMap g v := by
  unfold getOutgoing nbrsMap
  cases h : plookup g.outgoing_edges v <;> simp [h]

theorem getOutgoing_viv (g : DirectedGraph) (v : Nat) :
    Viv g (getOutgoing g v).2 := by
  unfold getOutgoing
  cases h : plookup g.outgoing_edges v with
  | some d => exact viv_refl g
  | none =>
    refine ⟨rfl, ?_, ?_, ?_⟩
    · show edgesOf (g.outgoing_edges ++ [(v, [])]) = edges g
      simp [edges_eq_edgesOf]
    · intro x
      show (plookup (g.outgoing_edges ++ [(v, [])]) x).getD [] = nbrsMap g x
      unfold nbrsMap
      cases hx : plookup g.outgoing_edges x with
      | some d => rw [plookup_append_some _ hx]
      | none =>
        rw [plookup_append_none _ hx]
        by_cases hxv : v = x <;> simp [plookup, hxv]
    · rintro ⟨h1, h2, h3⟩
      refine ⟨?_, ?_, h3⟩
      · show (pkeys (g.outgoing_edges ++ [(v, [])])).Nodup
        rw [pkeys_append]
        exact nodup_append_singleton h1 (plookup_eq_none_iff.mp h)
      · intro p hp
        rcases List.mem_append.mp hp with hp | hp
        · exact h2 p hp
        · rw [List.mem_singleton] at hp
          rw [hp]
          exact List.nodup_nil

/-! ### Weak membership and key lemmas -/

theorem mem_pset_weak {β : Type} {m : List (Nat × β)} {k : Nat} {w : β} :
    ∀ p, p ∈ pset m k w → p = (k, w) ∨ p ∈ m := by
  induction m with
  | nil =>
    intro p hp
    simp only [pset, List.mem_singleton] at hp
    exact Or.inl hp
  | cons q rest ih =>
    intro p hp
    by_cases hk : q.1 = k
    · cases q with
      | mk a b =>
        simp only at hk
        rw [show pset ((a, b) :: rest) k w =
          (k, w) :: rest by simp [pset, hk]] at hp
        rcases List.mem_cons.mp hp with hp | hp
        · exact Or.inl hp
        · exact Or.inr (List.mem_cons_of_mem _ hp)
    · cases q with
      | mk a b =>
        simp only at hk
        rw [show pset ((a, b) :: rest) k w =
          (a, b) :: pset rest k w by simp [pset, hk]] at hp
        rcases List.mem_cons.mp hp with hp | hp
        · exact Or.inr (hp ▸ List.mem_cons_self _ _)
        · rcases ih p hp with hp | hp
          · exact Or.inl hp
          · exact Or.inr (List.mem_cons_of_mem _ hp)

theorem mem_perase_weak {β : Type} {m : List (Nat × β)} {k : Nat} :
    ∀ p, p ∈ perase m k → p ∈ m := by
  induction m with
  | nil => intro p hp; simp [perase] at hp
  | cons q rest ih =>
    intro p hp
    by_cases hk : q.1 = k
    · cases q with
      | mk a b =>
        simp only at hk
        rw [show perase ((a, b) :: rest) k = rest by simp [perase, hk]] at hp
        exact List.mem_cons_of_mem _ hp
    · cases q with
      | mk a b =>
        simp only at hk
        rw [show perase ((a, b) :: rest) k =
          (a, b) :: perase rest k by simp [perase, hk]] at hp
        rcases List.mem_cons.mp hp with hp | hp
        · exact hp ▸ List.mem_cons_self _ _
        · exact List.mem_cons_of_mem _ (ih p hp)

theorem mem_pkeys {β : Type} {m : List (Nat × β)} {x : Nat} :
    x ∈ pkeys m ↔ ∃ p ∈ m, p.1 = x := by
  unfold pkeys
  exact List.mem_map

theorem mem_pkeys_pset {β : Type} {m : List (Nat × β)} {k x : Nat} (w : β)
    (h : x ∈ pkeys m) : x ∈ pkeys (pset m k w) := by
  by_cases hk : k ∈ pkeys m
  · rw [pkeys_pset_of_mem _ hk]; exact h
  · rw [pset_eq_append _ (plookup_eq_none_iff.mpr hk), pkeys_append]
    exact List.mem_append_left _ h

theorem pkeys_pset_nodup {β : Type} {m : List (Nat × β)} {k : Nat} {w : β}
    (h : (pkeys m).Nodup) : (pkeys (pset m k w)).Nodup := by
  by_cases hk : k ∈ pkeys m
  · rw [pkeys_pset_of_mem _ hk]; exact h
  · rw [pset_eq_append _ (plookup_eq_none_iff.mpr hk), pkeys_append]
    exact nodup_append_singleton h hk

theorem pkeys_psetdefault_nodup {β : Type} {m : List (Nat × β)} {k : Nat}
    {w : β} (h : (pkeys m).Nodup) : (pkeys (psetdefault m k w)).Nodup := by
  rw [pkeys_psetdefault]
  by_cases hk : k ∈ pkeys m
  · rw [if_pos hk]; exact h
  · rw [if_neg hk]
    exact nodup_append_singleton h hk

theorem mem_pkeys_psetdefault {β : Type} (m : List (Nat × β)) (k : Nat)
    (w : β) {x : Nat} (h : x ∈ pkeys m) : x ∈ pkeys (psetdefault m k w) := by
  rw [pkeys_psetdefault]
  by_cases hk : k ∈ pkeys m
  · rw [if_pos hk]; exact h
  · rw [if_neg hk]; exact List.mem_append_left _ h

theorem self_mem_pkeys_psetdefault {β : Type} (m : List (Nat × β)) (k : Nat)
    (w : β) : k ∈ pkeys (psetdefault m k w) := by
  rw [pkeys_psetdefault]
  by_cases hk : k ∈ pkeys m
  · rw [if_pos hk]; exact hk
  · rw [if_neg hk]
    exact List.mem_append_right _ (List.mem_singleton.mpr rfl)

theorem mem_pkeys_perase_weak {β : Type} {m : List (Nat × β)} {k x : Nat}
    (h : x ∈ pkeys (perase m k)) : x ∈ pkeys m := by
  obtain ⟨p, hp, rfl⟩ := mem_pkeys.mp h
  exact mem_pkeys.mpr ⟨p, mem_perase_weak p hp, rfl⟩

theorem pkeys_perase_nodup {β : Type} {m : List (Nat × β)} {k : Nat}
    (h : (pkeys m).Nodup) : (pkeys (perase m k)).Nodup := by
  induction m with
  | nil => simp [perase]
  | cons q rest ih =>
    simp only [pkeys_cons, List.nodup_cons] at h
    cases q with
    | mk a b =>
      by_cases hk : a = k
      · rw [show perase ((a, b) :: rest) k = rest by simp [perase, hk]]
        exact h.2
      · rw [show perase ((a, b) :: rest) k =
          (a, b) :: perase rest k by simp [perase, hk]]
        rw [pkeys_cons, List.nodup_cons]
        exact ⟨fun hm => h.1 (mem_pkeys_perase_weak hm), ih h.2⟩

theorem mem_pkeys_perase {β : Type} {m : List (Nat × β)} {k x : Nat}
    (hnd : (pkeys m).Nodup) (h : x ∈ pkeys m) (hx : x ≠ k) :
    x ∈ pkeys (perase m k) := by
  obtain ⟨p, hp, rfl⟩ := mem_pkeys.mp h
  exact mem_pkeys.mpr ⟨p, (mem_perase hnd p).mpr ⟨hp, hx⟩, rfl⟩

theorem pkeys_filter_nodup {β : Type} {l : List (Nat × β)}
    {f : Nat × β → Bool} (h : (pkeys l).Nodup) :
    (pkeys (l.filter f)).Nodup := by
  have hsub : List.Sublist (pkeys (l.filter f)) (pkeys l) :=
    List.Sublist.map Prod.fst (List.filter_sublist l)
  exact h.sublist hsub

theorem pkeys_map_snd {β γ : Type} (l : List (Nat × β))
    (f : Nat × β → γ) :
    pkeys (l.map (fun p => (p.1, f p))) = pkeys l := by
  induction l with
  | nil => rfl
  | cons p rest ih =>
    rw [List.map_cons, pkeys_cons, pkeys_cons, ih]

theorem mem_edgesOf_pset_perase {m : Outer} {u vd : Nat} {d : Inner}
    (hnd : (pkeys m).Nodup) (hin : ∀ p ∈ m, (pkeys p.2).Nodup)
    (hl : plookup m u = some d) (t : Nat × Nat × Int) :
    t ∈ edgesOf (pset m u (perase d vd)) ↔
      (t ∈ edgesOf m ∧ ¬(t.1 = u ∧ t.2.1 = vd)) := by
  have hdnd : (pkeys d).Nodup := hin _ (plookup_mem hl)
  rw [mem_edgesOf, mem_edgesOf]
  constructor
  · rintro ⟨p, hp, q, hq, rfl⟩
    rcases (mem_pset hnd p).mp hp with hp' | ⟨hp', hne⟩
    · subst hp'
      obtain ⟨hq', hqne⟩ := (mem_perase hdnd q).mp hq
      refine ⟨⟨(u, d), plookup_mem hl, q, hq', rfl⟩, ?_⟩
      rintro ⟨-, h2⟩
      exact hqne h2
    · exact ⟨⟨p, hp', q, hq, rfl⟩, fun hh => hne hh.1⟩
  · rintro ⟨⟨p, hp, q, hq, rfl⟩, hne⟩
    by_cases hpu : p.1 = u
    · have : plookup m u = some p.2 := by
        rw [← hpu]; exact plookup_of_mem_nodup hnd hp
      rw [hl] at this
      have hd : p.2 = d := by
        injection this with this
        exact this.symm
      refine ⟨(u, perase d vd), ?_, q, ?_, by rw [hpu]⟩
      · exact (mem_pset hnd _).mpr (Or.inl rfl)
      · refine (mem_perase hdnd q).mpr ⟨hd ▸ hq, ?_⟩
        intro hh
        exact hne ⟨hpu, hh⟩
    · exact ⟨p, (mem_pset hnd p).mpr (Or.inr ⟨hp, hpu⟩), q, hq, rfl⟩

/-! ### Structure of add-edge and the vivified lookup -/

theorem getOutgoing_lookup (g : DirectedGraph) (u : Nat) :
    plookup (getOutgoing g u).2.outgoing_edges u = some (nbrsMap g u) := by
  unfold getOutgoing nbrsMap
  cases hp : plookup g.outgoing_edges u with
  | some d => simpa using hp
  | none =>
    dsimp only
    rw [plookup_append_none _ hp]
    simp [plookup]

theorem mem_edges_of_nbrsMap {g : DirectedGraph} {u : Nat} {q : Nat × Int}
    (h : q ∈ nbrsMap g u) : (u, q.1, q.2) ∈ edges g := by
  unfold nbrsMap at h
  cases hp : plookup g.outgoing_edges u with
  | none => rw [hp] at h; simp at h
  | some d =>
    rw [hp] at h
    simp only [Option.getD_some] at h
    exact mem_edgesOf.mpr ⟨(u, d), plookup_mem hp, q, h, rfl⟩

theorem add_edge_eq (g : DirectedGraph) (u v : Nat) (w : Int) :
    add_edge g u v w =
      { outgoing_edges :=
          pset (getOutgoing g u).2.outgoing_edges u (pset (nbrsMap g u) v w),
        vertex_data :=
          psetdefault (psetdefault g.vertex_data u none) v none } := by
  unfold add_edge getOutgoing nbrsMap
  dsimp only
  cases hp : plookup g.outgoing_edges u <;> rfl

/-! ### Frame lemmas: the read/traversal operations only auto-vivify -/

theorem bfs_level_step_viv :
    ∀ (level : List Nat) (g : DirectedGraph) (vis next : List Nat),
      Viv g (bfs_level_step g level vis next).1 := by
  intro level
  induction level with
  | nil => intro g vis next; exact viv_refl g
  | cons n rest ih =>
    intro g vis next
    exact viv_trans (getOutgoing_viv g n) (ih _ _ _)

theorem bfs_level_loop_viv :
    ∀ (fuel : Nat) (g : DirectedGraph) (vis level : List Nat),
      Viv g (bfs_level_loop fuel g vis level).2 := by
  intro fuel
  induction fuel with
  | zero => intro g vis level; exact viv_refl g
  | succ f ih =>
    intro g vis level
    cases level with
    | nil => exact viv_refl g
    | cons n rest =>
      exact viv_trans (bfs_level_step_viv (n :: rest) g vis []) (ih _ _ _)

theorem bfsq_loop_viv :
    ∀ (fuel : Nat) (g : DirectedGraph) (vis q : List Nat),
      Viv g (bfsq_loop fuel g vis q).2 := by
  intro fuel
  induction fuel with
  | zero => intro g vis q; exact viv_refl g
  | succ f ih =>
    intro g vis q
    cases q with
    | nil => exact viv_refl g
    | cons v rest =>
      exact viv_trans (getOutgoing_viv g v) (ih _ _ _)

theorem dfs_go_viv :
    ∀ (fuel v : Nat) (g : DirectedGraph) (vis : List Nat),
      Viv g (dfs_go fuel v g vis).2 := by
  intro fuel
  induction fuel with
  | zero => intro v g vis; exact viv_refl g
  | succ f ih =>
    intro v g vis
    show Viv g ((((getOutgoing g v).1.map Prod.fst).foldl
      (fun st n => if n ∈ st.1 then st else dfs_go f n st.2 st.1)
      (sadd vis v, (getOutgoing g v).2)).2)
    have aux : ∀ (l : List Nat) (st : List Nat × DirectedGraph),
        Viv g st.2 →
        Viv g ((l.foldl
          (fun st n => if n ∈ st.1 then st else dfs_go f n st.2 st.1) st)).2 := by
      intro l
      induction l with
      | nil => intro st h; exact h
      | cons n rest ihl =>
        intro st h
        by_cases hn : n ∈ st.1
        · simp only [List.foldl_cons, if_pos hn]
          exact ihl st h
        · simp only [List.foldl_cons, if_neg hn]
          exact ihl _ (viv_trans h (ih n st.2 st.1))
    exact aux _ _ (getOutgoing_viv g v)

theorem dfsit_loop_viv :
    ∀ (fuel : Nat) (g : DirectedGraph) (vis st : List Nat),
      Viv g (dfsit_loop fuel g vis st).2 := by
  intro fuel
  induction fuel with
  | zero => intro g vis st; exact viv_refl g
  | succ f ih =>
    intro g vis st
    cases st with
    | nil => exact viv_refl g
    | cons v rest =>
      exact viv_trans (getOutgoing_viv g v) (ih _ _ _)

theorem bfs_sp_loop_viv :
    ∀ (e fuel : Nat) (g : DirectedGraph) (vis q : List Nat)
      (bt : List (Nat × Option Nat)),
      Viv g (bfs_sp_loop e fuel g vis q bt).1 := by
  intro e fuel
  induction fuel with
  | zero => intro g vis q bt; exact viv_refl g
  | succ f ih =>
    intro g vis q bt
    cases q with
    | nil => exact viv_refl g
    | cons v rest =>
      show Viv g _
      unfold bfs_sp_loop
      by_cases hb :
          (bfs_sp_inner v e ((getOutgoing g v).1.map Prod.fst) vis rest bt).2.2.2
      · simp only [hb, if_true]
        exact getOutgoing_viv g v
      · simp only [hb, if_false]
        exact viv_trans (getOutgoing_viv g v) (ih _ _ _ _)

theorem dij_loop_viv :
    ∀ (fuel : Nat) (g : DirectedGraph) (vis : List Nat)
      (heap : List (Int × Nat)) (dist : List (Nat × DVal))
      (bt : List (Nat × Option Nat)),
      Viv g (dij_loop fuel g vis heap dist bt).2 := by
  intro fuel
  induction fuel with
  | zero => intro g vis heap dist bt; exact viv_refl g
  | succ f ih =>
    intro g vis heap dist bt
    rw [dij_loop]
    cases hpop : heapPop heap with
    | none => exact viv_refl g
    | some pr =>
      obtain ⟨⟨sd, src⟩, heap1⟩ := pr
      dsimp only
      cases hgo : getOutgoing g src with
      | mk inner g1 =>
        have hviv : Viv g g1 := by
          have h := getOutgoing_viv g src
          rw [hgo] at h
          exact h
        dsimp only
        cases hrel : dij_relax src sd inner (sadd vis src) dist bt heap1 with
        | error err => exact hviv
        | ok tr =>
          obtain ⟨dist1, bt1, heap2⟩ := tr
          exact viv_trans hviv (ih g1 (sadd vis src) heap2 dist1 bt1)

theorem find_dij_snd (g : DirectedGraph) (s e : Nat) :
    (find_shortest_path_dijkstra g s e).2 =
      (dij_loop (dijFuel g) g [] [(0, s)] (distInit g s) (btInit g)).2 := by
  unfold find_shortest_path_dijkstra
  cases h : dij_loop (dijFuel g) g [] [(0, s)] (distInit g s) (btInit g) with
  | mk res g1 => cases res <;> rfl

theorem find_bfs_snd (g : DirectedGraph) (s e : Nat) :
    (find_shortest_path_bfs g s e).2 =
      (bfs_sp_loop e (travFuel g) g [s] [s] (btInit g)).1 := by
  unfold find_shortest_path_bfs
  cases h : bfs_sp_loop e (travFuel g) g [s] [s] (btInit g) with
  | mk g1 bt => rfl

theorem edge_weight_snd (g : DirectedGraph) (u v : Nat) :
    (edge_weight g u v).2 = (getOutgoing g u).2 := by
  unfold edge_weight
  cases hgo : getOutgoing g u with
  | mk inner g1 =>
    dsimp only
    cases hp : plookup inner v <;> rfl

/-! ### Preservation of the C8 invariant by every operation -/

theorem inv_of_viv {g g' : DirectedGraph} (hviv : Viv g g') (h : Inv g) :
    Inv g' := by
  refine ⟨hviv.2.2.2 h.1, ?_⟩
  intro t ht
  rw [hviv.2.1] at ht
  have h2 := h.2 t ht
  show t.1 ∈ pkeys g'.vertex_data ∧ t.2.1 ∈ pkeys g'.vertex_data
  rw [hviv.1]
  exact h2

theorem inv_add_vertex {g : DirectedGraph} (h : Inv g) (v : Nat)
    (val : Option Int) : Inv (add_vertex g v val) := by
  refine ⟨⟨h.1.1, h.1.2.1, pkeys_pset_nodup h.1.2.2⟩, ?_⟩
  intro t ht
  have h2 := h.2 t ht
  exact ⟨mem_pkeys_pset _ h2.1, mem_pkeys_pset _ h2.2⟩

theorem mem_edges_add_edge {g : DirectedGraph} {u v : Nat} {w : Int}
    {t : Nat × Nat × Int} (h : t ∈ edges (add_edge g u v w)) :
    t ∈ edges g ∨ (t.1 = u ∧ t.2.1 = v) := by
  rw [add_edge_eq, edges_eq_edgesOf] at h
  dsimp only at h
  obtain ⟨p, hp, q, hq, rfl⟩ := mem_edgesOf.mp h
  rcases mem_pset_weak p hp with hp' | hp'
  · subst hp'
    rcases mem_pset_weak q hq with hq' | hq'
    · subst hq'
      exact Or.inr ⟨rfl, rfl⟩
    · exact Or.inl (mem_edges_of_nbrsMap hq')
  · refine Or.inl ?_
    have hm : (p.1, q.1, q.2) ∈ edges (getOutgoing g u).2 :=
      mem_edgesOf.mpr ⟨p, hp', q, hq, rfl⟩
    rw [(getOutgoing_viv g u).2.1] at hm
    exact hm

theorem wf_add_edge {g : DirectedGraph} (h : WF g) (u v : Nat) (w : Int) :
    WF (add_edge g u v w) := by
  rw [add_edge_eq]
  have hM1 : WF (getOutgoing g u).2 := (getOutgoing_viv g u).2.2.2 h
  refine ⟨pkeys_pset_nodup hM1.1, ?_, ?_⟩
  · intro p hp
    rcases mem_pset_weak p hp with hp' | hp'
    · rw [hp']
      exact pkeys_pset_nodup (hM1.2.1 _ (plookup_mem (getOutgoing_lookup g u)))
    · exact hM1.2.1 p hp'
  · exact pkeys_psetdefault_nodup (pkeys_psetdefault_nodup h.2.2)

theorem inv_add_edge {g : DirectedGraph} (h : Inv g) (u v : Nat) (w : Int) :
    Inv (add_edge g u v w) := by
  refine ⟨wf_add_edge h.1 u v w, ?_⟩
  intro t ht
  have hvd : vertices (add_edge g u v w) =
      pkeys (psetdefault (psetdefault g.vertex_data u none) v none) := by
    rw [add_edge_eq]
    rfl
  rw [hvd]
  rcases mem_edges_add_edge ht with ht' | ⟨h1, h2⟩
  · have h2 := h.2 t ht'
    exact ⟨mem_pkeys_psetdefault _ _ _ (mem_pkeys_psetdefault _ _ _ h2.1),
      mem_pkeys_psetdefault _ _ _ (mem_pkeys_psetdefault _ _ _ h2.2)⟩
  · rw [h1, h2]
    exact ⟨mem_pkeys_psetdefault _ _ _ (self_mem_pkeys_psetdefault _ _ _),
      self_mem_pkeys_psetdefault _ _ _⟩

theorem mem_edges_remove_scan {m : Outer} {v : Nat}
    (hnd : (pkeys m).Nodup) {t : Nat × Nat × Int}
    (h : t ∈ edgesOf ((perase m v).map
      (fun p => (p.1, p.2.filter (fun q => q.1 ≠ v))))) :
    t ∈ edgesOf m ∧ t.1 ≠ v ∧ t.2.1 ≠ v := by
  obtain ⟨p', hp', q, hq, rfl⟩ := mem_edgesOf.mp h
  obtain ⟨p, hp, rfl⟩ := List.mem_map.mp hp'
  have hqf := List.mem_filter.mp hq
  have hpm := (mem_perase hnd p).mp hp
  refine ⟨mem_edgesOf.mpr ⟨p, hpm.1, q, hqf.1, rfl⟩, hpm.2, ?_⟩
  have h2 := hqf.2
  simp only [decide_eq_true_eq] at h2
  exact h2

theorem wf_remove_scan {m : Outer} (v : Nat)
    (hnd : (pkeys m).Nodup) (hin : ∀ p ∈ m, (pkeys p.2).Nodup) :
    (pkeys ((perase m v).map
      (fun p => (p.1, p.2.filter (fun q => q.1 ≠ v))))).Nodup ∧
    ∀ p' ∈ (perase m v).map
      (fun p => (p.1, p.2.filter (fun q => q.1 ≠ v))), (pkeys p'.2).Nodup := by
  constructor
  · rw [pkeys_map_snd]
    exact pkeys_perase_nodup hnd
  · intro p' hp'
    obtain ⟨p, hp, rfl⟩ := List.mem_map.mp hp'
    exact pkeys_filter_nodup (hin p (mem_perase_weak p hp))

theorem inv_remove_vertex {g : DirectedGraph} (h : Inv g) (v : Nat) :
    Inv (remove_vertex g v).2 := by
  unfold remove_vertex
  cases h1 : plookup g.outgoing_edges v with
  | none => exact h
  | some d =>
    dsimp only
    have hscan := wf_remove_scan v h.1.1 h.1.2.1
    cases h2 : plookup g.vertex_data v with
    | none =>
      dsimp only
      refine ⟨⟨hscan.1, hscan.2, h.1.2.2⟩, ?_⟩
      intro t ht
      have h3 := mem_edges_remove_scan h.1.1 ht
      exact h.2 t h3.1
    | some pv =>
      dsimp only
      refine ⟨⟨hscan.1, hscan.2, pkeys_perase_nodup h.1.2.2⟩, ?_⟩
      intro t ht
      have h3 := mem_edges_remove_scan h.1.1 ht
      have h4 := h.2 t h3.1
      exact ⟨mem_pkeys_perase h.1.2.2 h4.1 h3.2.1,
        mem_pkeys_perase h.1.2.2 h4.2 h3.2.2⟩

theorem inv_remove_edge {g : DirectedGraph} (h : Inv g) (u v : Nat) :
    Inv (remove_edge g u v).2 := by
  unfold remove_edge
  cases hgo : getOutgoing g u with
  | mk inner g1 =>
    have hviv : Viv g g1 := by
      have hv := getOutgoing_viv g u
      rw [hgo] at hv
      exact hv
    have hinv1 : Inv g1 := inv_of_viv hviv h
    have hlook : plookup g1.outgoing_edges u = some inner := by
      have hl := getOutgoing_lookup g u
      have hfst := getOutgoing_fst g u
      rw [hgo] at hl hfst
      dsimp only at hl hfst
      rw [← hfst] at hl
      exact hl
    dsimp only
    cases hp : plookup inner v with
    | none => exact hinv1
    | some w' =>
      dsimp only
      have hinnd : (pkeys inner).Nodup :=
        hinv1.1.2.1 _ (plookup_mem hlook)
      refine ⟨⟨pkeys_pset_nodup hinv1.1.1, ?_, hinv1.1.2.2⟩, ?_⟩
      · intro p hpp
        rcases mem_pset_weak p hpp with hp' | hp'
        · rw [hp']
          exact pkeys_perase_nodup hinnd
        · exact hinv1.1.2.1 p hp'
      · intro t ht
        have hmem := (mem_edgesOf_pset_perase hinv1.1.1 hinv1.1.2.1 hlook t).mp ht
        exact hinv1.2 t hmem.1

theorem inv_emptyGraph : Inv emptyGraph := by
  refine ⟨⟨List.nodup_nil, ?_, List.nodup_nil⟩, ?_⟩
  · intro p hp
    simp [emptyGraph] at hp
  · intro t ht
    simp [edges, emptyGraph] at ht

theorem inv_applyOp {g : DirectedGraph} (h : Inv g) (op : Op) :
    Inv (applyOp g op) := by
  cases op with
  | addVertexOp v val => exact inv_add_vertex h v val
  | addEdgeOp u v w => exact inv_add_edge h u v w
  | removeVertexOp v => exact inv_remove_vertex h v
  | removeEdgeOp u v => exact inv_remove_edge h u v
  | bfsOp v => exact inv_of_viv (bfs_level_loop_viv _ _ _ _) h
  | bfsQueueOp v => exact inv_of_viv (bfsq_loop_viv _ _ _ _) h
  | dfsOp v => exact inv_of_viv (dfs_go_viv _ _ _ _) h
  | dfsIterOp v => exact inv_of_viv (dfsit_loop_viv _ _ _ _) h
  | spBfsOp s e =>
    show Inv (find_shortest_path_bfs g s e).2
    rw [find_bfs_snd]
    exact inv_of_viv (bfs_sp_loop_viv _ _ _ _ _ _) h
  | spDijkstraOp s e =>
    show Inv (find_shortest_path_dijkstra g s e).2
    rw [find_dij_snd]
    exact inv_of_viv (dij_loop_viv _ _ _ _ _ _) h
  | spBellmanOp s e => exact h
  | incidentOutOp v => exact inv_of_viv (getOutgoing_viv _ _) h
  | incidentInOp v => exact h
  | edgeWeightOp u v =>
    show Inv (edge_weight g u v).2
    rw [edge_weight_snd]
    exact inv_of_viv (getOutgoing_viv _ _) h
  | edgesOp => exact h
  | verticesOp => exact h
  | vertexCountOp => exact h
  | edgeCountOp => exact h

theorem inv_runOps (ops : List Op) : Inv (runOps ops) := by
  unfold runOps
  have haux : ∀ (l : List Op) (g : DirectedGraph), Inv g →
      Inv (l.foldl applyOp g) := by
    intro l
    induction l with
    | nil => intro g hg; exact hg
    | cons op rest ih =>
      intro g hg
      exact ih _ (inv_applyOp hg op)
  exact haux ops emptyGraph inv_emptyGraph

/-- C8.  After every sequence of operations starting from the empty graph —
mutators and readers alike, the readers included because they mutate the
defaultdict by auto-vivification — every triple produced by `edges()` has
both its source and its destination in the vertex set; and `add_edge(u, v,
w)` puts both endpoints into the vertex set, inserting a missing endpoint
with a `None` payload while keeping an existing endpoint's payload. -/
theorem c8_endpoints_always_present :
    (∀ (ops : List Op) (t : Nat × Nat × Int), t ∈ edges (runOps ops) →
      t.1 ∈ vertices (runOps ops) ∧ t.2.1 ∈ vertices (runOps ops)) ∧
    (∀ (g : DirectedGraph) (u v : Nat) (w : Int),
      u ∈ vertices (add_edge g u v w) ∧ v ∈ vertices (add_edge g u v w) ∧
      plookup (add_edge g u v w).vertex_data u =
        some ((plookup g.vertex_data u).getD none) ∧
      plookup (add_edge g u v w).vertex_data v =
        some ((plookup g.vertex_data v).getD none)) := by
  constructor
  · intro ops t ht
    exact (inv_runOps ops).2 t ht
  · intro g u v w
    have hvd : (add_edge g u v w).vertex_data =
        psetdefault (psetdefault g.vertex_data u none) v none := by
      rw [add_edge_eq]
    refine ⟨?_, ?_, ?_, ?_⟩
    · show u ∈ pkeys (add_edge g u v w).vertex_data
      rw [hvd]
      exact mem_pkeys_psetdefault _ _ _ (self_mem_pkeys_psetdefault _ _ _)
    · show v ∈ pkeys (add_edge g u v w).vertex_data
      rw [hvd]
      exact self_mem_pkeys_psetdefault _ _ _
    · rw [hvd]
      by_cases huv : u = v
      · subst huv
        rw [plookup_psetdefault_self, plookup_psetdefault_self]
        simp
      · rw [plookup_psetdefault_ne _ _ huv, plookup_psetdefault_self]
    · rw [hvd, plookup_psetdefault_self]
      by_cases hvu : v = u
      · subst hvu
        rw [plookup_psetdefault_self]
        simp
      · rw [plookup_psetdefault_ne _ _ hvu]

/-- Witness for C8: after the single call `add_edge(1, 2, 5)` on a fresh
graph, the produced triple `(1, 2, 5)` has both endpoints in the vertex
set. -/
theorem c8_endpoints_always_present_witness :
    1 ∈ vertices (runOps [Op.addEdgeOp 1 2 5]) ∧
    2 ∈ vertices (runOps [Op.addEdgeOp 1 2 5]) :=
  c8_endpoints_always_present.1 [Op.addEdgeOp 1 2 5] (1, 2, 5) (by decide)

/-- C3, amended.  The read and traversal operations
(`breadth_first_search`, `breadth_first_search_queue`, `depth_first_search`
— seeded or not —, `depth_first_search_iterate`, `find_shortest_path_bfs`,
`find_shortest_path_dijkstra`, `incident_edges` (outgoing) and
`edge_weight`) create no vertex and modify no payload, no edge and no
weight: the vertex dict and the produced edge triples are exactly those of
the original graph.  Unlike the original claim, they are *not* free of
adjacency-entry creation: each `outgoing_edges[x]` read on the defaultdict
may add an empty adjacency entry (see the counterexample).
`find_shortest_path_bellman_ford`, `edges`, `vertices` and the incoming
`incident_edges` read the store without any `[]`-access, which the embedding
reflects by giving them no graph result at all. -/
theorem c3_reads_preserve_vertices_and_edges
    (g : DirectedGraph) (v s e u w : Nat) (vis0 : List Nat) :
    ((breadth_first_search g v).2.vertex_data = g.vertex_data ∧
      edges (breadth_first_search g v).2 = edges g) ∧
    ((breadth_first_search_queue g v).2.vertex_data = g.vertex_data ∧
      edges (breadth_first_search_queue g v).2 = edges g) ∧
    ((depth_first_search g v).2.vertex_data = g.vertex_data ∧
      edges (depth_first_search g v).2 = edges g) ∧
    ((dfs_go (travFuel g) v g vis0).2.vertex_data = g.vertex_data ∧
      edges (dfs_go (travFuel g) v g vis0).2 = edges g) ∧
    ((depth_first_search_iterate g v).2.vertex_data = g.vertex_data ∧
      edges (depth_first_search_iterate g v).2 = edges g) ∧
    ((find_shortest_path_bfs g s e).2.vertex_data = g.vertex_data ∧
      edges (find_shortest_path_bfs g s e).2 = edges g) ∧
    ((find_shortest_path_dijkstra g s e).2.vertex_data = g.vertex_data ∧
      edges (find_shortest_path_dijkstra g s e).2 = edges g) ∧
    ((incident_edges_outgoing g v).2.vertex_data = g.vertex_data ∧
      edges (incident_edges_outgoing g v).2 = edges g) ∧
    ((edge_weight g u w).2.vertex_data = g.vertex_data ∧
      edges (edge_weight g u w).2 = edges g) := by
  have hdij : (find_shortest_path_dijkstra g s e).2 =
      (dij_loop (dijFuel g) g [] [(0, s)] (distInit g s) (btInit g)).2 := by
    unfold find_shortest_path_dijkstra
    cases h : dij_loop (dijFuel g) g [] [(0, s)] (distInit g s) (btInit g) with
    | mk res g1 => cases res <;> rfl
  have hbfs : (find_shortest_path_bfs g s e).2 =
      (bfs_sp_loop e (travFuel g) g [s] [s] (btInit g)).1 := by
    unfold find_shortest_path_bfs
    cases h : bfs_sp_loop e (travFuel g) g [s] [s] (btInit g) with
    | mk g1 bt => rfl
  have hew : (edge_weight g u w).2 = (getOutgoing g u).2 := by
    unfold edge_weight
    cases hgo : getOutgoing g u with
    | mk inner g1 =>
      dsimp only
      cases hp : plookup inner w <;> rfl
  refine ⟨?_, ?_, ?_, ?_, ?_, ?_, ?_, ?_, ?_⟩
  · exact ⟨(bfs_level_loop_viv _ _ _ _).1, (bfs_level_loop_viv _ _ _ _).2.1⟩
  · exact ⟨(bfsq_loop_viv _ _ _ _).1, (bfsq_loop_viv _ _ _ _).2.1⟩
  · exact ⟨(dfs_go_viv _ _ _ _).1, (dfs_go_viv _ _ _ _).2.1⟩
  · exact ⟨(dfs_go_viv _ _ _ _).1, (dfs_go_viv _ _ _ _).2.1⟩
  · exact ⟨(dfsit_loop_viv _ _ _ _).1, (dfsit_loop_viv _ _ _ _).2.1⟩
  · rw [hbfs]
    exact ⟨(bfs_sp_loop_viv _ _ _ _ _ _).1, (bfs_sp_loop_viv _ _ _ _ _ _).2.1⟩
  · rw [hdij]
    exact ⟨(dij_loop_viv _ _ _ _ _ _).1, (dij_loop_viv _ _ _ _ _ _).2.1⟩
  · exact ⟨(getOutgoing_viv _ _).1, (getOutgoing_viv _ _).2.1⟩
  · rw [hew]
    exact ⟨(getOutgoing_viv _ _).1, (getOutgoing_viv _ _).2.1⟩

/-! ### The amended remove-edge contract (C7) -/

/-- C7, amended.  `removeEdge(u, v)` fails with `EdgeNotFound` exactly when
no edge `u → v` exists, and otherwise succeeds, deleting exactly that edge
(a produced triple survives exactly when it is not the `u → v` one); on the
failing case the vertex set, payloads and the produced edge triples are all
unchanged — but, unlike the original claim's "no partial results", the
failing call may still create an empty auto-vivified adjacency entry for
`u` (see the counterexample), so only the observable vertex/edge content is
preserved, not the raw adjacency map. -/
theorem c7_remove_edge_amended (g : DirectedGraph) (u v : Nat) (hwf : WF g) :
    ((remove_edge g u v).1 = .error (.noSuchEdge u v) ↔ edgeLookup g u v = none) ∧
    (edgeLookup g u v = none →
      (remove_edge g u v).2.vertex_data = g.vertex_data ∧
      edges (remove_edge g u v).2 = edges g) ∧
    (edgeLookup g u v ≠ none →
      (remove_edge g u v).1 = .ok () ∧
      (remove_edge g u v).2.vertex_data = g.vertex_data ∧
      (∀ t, t ∈ edges (remove_edge g u v).2 ↔
        (t ∈ edges g ∧ ¬(t.1 = u ∧ t.2.1 = v)))) := by
  unfold remove_edge edgeLookup
  cases hu : plookup g.outgoing_edges u with
  | none =>
    unfold getOutgoing
    rw [hu]
    simp only [Option.none_bind]
    refine ⟨by simp [plookup], fun _ => ⟨rfl, ?_⟩, fun h => absurd rfl h⟩
    show edgesOf (g.outgoing_edges ++ [(u, [])]) = edges g
    simp [edges_eq_edgesOf]
  | some d =>
    unfold getOutgoing
    rw [hu]
    simp only [Option.some_bind]
    cases hv : plookup d v with
    | none => exact ⟨by simp, fun _ => ⟨rfl, rfl⟩, fun h => absurd rfl h⟩
    | some w =>
      refine ⟨by simp, fun h => by simp at h, fun _ => ⟨rfl, rfl, fun t => ?_⟩⟩
      show t ∈ edgesOf (pset g.outgoing_edges u (perase d v)) ↔ _
      exact mem_edgesOf_pset_perase hwf.1 hwf.2.1 hu t

/-- Witness for C7: the amended contract discharged on the one-edge graph
`0 → 1` at `u = 0`, `v = 1` (the edge exists, so the call succeeds and
deletes exactly that edge, checked at the triple `(0, 1, 1)`). -/
theorem c7_remove_edge_amended_witness :
    ((remove_edge eGraph01 0 1).1 = .error (.noSuchEdge 0 1) ↔
      edgeLookup eGraph01 0 1 = none) ∧
    ((0, 1, 1) ∈ edges (remove_edge eGraph01 0 1).2 ↔
      ((0, 1, 1) ∈ edges eGraph01 ∧ ¬((0 : Nat) = 0 ∧ (1 : Nat) = 1))) :=
  ⟨(c7_remove_edge_amended eGraph01 0 1 (by decide)).1,
   ((c7_remove_edge_amended eGraph01 0 1 (by decide)).2.2
     (by decide) ).2.2 (0, 1, 1)⟩
/-- C1.  The claim says `removeVertex(v)` succeeds for every vertex present
in the vertex set and fails exactly when `v` is absent.  The code instead
executes `del self.outgoing_edges[v]` unguarded, which raises `KeyError` for
any present vertex that has no outgoing-adjacency entry — for instance a
vertex that was only ever added with `add_vertex` (or only ever used as an
edge destination).  Here vertex `1` is in the vertex set, yet
`remove_vertex(1)` raises, and so does removing the pure sink `2` of the
one-edge graph. -/
theorem c1_remove_vertex_raises_on_present_vertex :
    1 ∈ vertices vOnlyGraph ∧
    (remove_vertex vOnlyGraph 1).1 = .error (.keyError 1) ∧
    2 ∈ vertices (add_edge emptyGraph 1 2 5) ∧
    (remove_vertex (add_edge emptyGraph 1 2 5) 2).1 = .error (.keyError 2) := by
  decide

/-- C2.  The claim says the shortest-path routines raise `PathNotFound`
exactly when no directed path exists.  But `construct_path` tests its
predecessor chain with Python truthiness (`while last_step:`), so a
predecessor equal to the falsy vertex `0` is treated as "no predecessor".
On the graph with the single edge `0 → 1`, a path from `0` to `1` plainly
exists (the edge itself is produced by `edges()`), yet
`find_shortest_path_bfs(0, 1)` raises `PathNotFound`. -/
theorem c2_bfs_path_not_found_despite_path :
    0 ∈ vertices eGraph01 ∧
    (0, 1, 1) ∈ edges eGraph01 ∧
    (find_shortest_path_bfs eGraph01 0 1).1 = .error (.noPath 0 1) := by
  decide

/-- C4.  Bellman-Ford performs `vertexCount()` passes and, on the final
pass, raises `NegativeWeightCycleDetected` for any edge that still relaxes:
on the two-vertex graph `1→2(-3)`, `2→1(1)` every call
`find_shortest_path_bellman_ford(1, end)` raises, for every `end`
whatsoever; and on a plain positive chain the final pass finds nothing to
relax, so no spurious failure is raised and the path is returned. -/
theorem c4_bellman_ford_negative_cycle :
    (∀ e : Nat,
      find_shortest_path_bellman_ford negCycleGraph 1 e = .error .negCycle) ∧
    find_shortest_path_bellman_ford chainGraph 1 3 = .ok [1, 2, 3] := by
  exact ⟨fun _ => rfl, rfl⟩

/-- C5.  On the spec's scenario graph (`A,B,C,D = 1,2,3,4`; `A→B(1)`,
`B→C(2)`, `A→C(4)`, `C→D(1)`), `find_shortest_path_dijkstra(A, D)` returns
the path `[A, B, C, D]`, whose total edge weight is `1 + 2 + 1 = 4`. -/
theorem c5_dijkstra_diamond :
    (find_shortest_path_dijkstra diamondGraph 1 4).1 = .ok [1, 2, 3, 4] ∧
    pathWeight diamondGraph [1, 2, 3, 4] = some 4 := by
  decide

/-- C6.  The claim says that on non-negative graphs Dijkstra and
Bellman-Ford both fail or both return equal-weight paths.  On `tieGraph`
every weight is non-negative and two routes `1 → 3` tie at weight 4; the two
algorithms record different predecessor trees, and Bellman-Ford's tree
routes `3` through the falsy vertex `0`, which `construct_path`'s truthiness
test (`while last_step:`) mistakes for a missing predecessor.  So Dijkstra
returns `[1, 2, 3]` (weight 4) while Bellman-Ford raises `PathNotFound`. -/
theorem c6_dijkstra_bellman_ford_disagree :
    nonNegWeights tieGraph = true ∧
    (find_shortest_path_dijkstra tieGraph 1 3).1 = .ok [1, 2, 3] ∧
    pathWeight tieGraph [1, 2, 3] = some 4 ∧
    find_shortest_path_bellman_ford tieGraph 1 3 = .error (.noPath 1 3) := by
  decide

/-- C3, counterexample.  The claim says the read/traversal operations create
no adjacency entry.  But `outgoing_edges` is a `defaultdict(dict)`, so
`breadth_first_search(1)` on a graph holding only the isolated vertex `1`
reads `self.outgoing_edges[1]` and thereby inserts an empty adjacency entry
for `1` that was not there before. -/
theorem c3_traversal_creates_adjacency_entry :
    pkeys vOnlyGraph.outgoing_edges = [] ∧
    pkeys (breadth_first_search vOnlyGraph 1).2.outgoing_edges = [1] := by
  decide

/-- C7, counterexample.  The claim says a failing `removeEdge(u, v)` leaves
the graph state unchanged.  But `del self.outgoing_edges[u][v]` first reads
`self.outgoing_edges[u]` on the defaultdict, so when `u` has no adjacency
entry the failing call still creates an empty one: on two isolated vertices,
`remove_edge(1, 2)` raises `EdgeNotFound` yet mutates the store. -/
theorem c7_failing_remove_edge_mutates :
    (remove_edge twoVertexGraph 1 2).1 = .error (.noSuchEdge 1 2) ∧
    (remove_edge twoVertexGraph 1 2).2 ≠ twoVertexGraph := by
  decide

/-! ### Set and counting helpers for the traversal proofs -/

theorem mem_sadd {l : List Nat} {x y : Nat} :
    x ∈ sadd l y ↔ x = y ∨ x ∈ l := by
  unfold sadd
  by_cases h : y ∈ l
  · rw [if_pos h]
    constructor
    · exact fun hx => Or.inr hx
    · rintro (rfl | hx)
      · exact h
      · exact hx
  · rw [if_neg h, List.mem_append, List.mem_singleton]
    exact or_comm

theorem mem_sadd_self (l : List Nat) (y : Nat) : y ∈ sadd l y :=
  mem_sadd.mpr (Or.inl rfl)

theorem mem_sadd_of_mem {l : List Nat} {x : Nat} (y : Nat) (h : x ∈ l) :
    x ∈ sadd l y :=
  mem_sadd.mpr (Or.inr h)

theorem sadd_of_mem {l : List Nat} {y : Nat} (h : y ∈ l) : sadd l y = l := by
  unfold sadd
  rw [if_pos h]

theorem filter_length_mono {α : Type} {p q : α → Bool} {l : List α}
    (h : ∀ a, p a = true → q a = true) :
    (l.filter p).length ≤ (l.filter q).length := by
  induction l with
  | nil => simp
  | cons a rest ih =>
    rw [List.filter_cons, List.filter_cons]
    cases hpa : p a with
    | false =>
      cases hqa : q a with
      | false => simpa using ih
      | true =>
        simp only [if_true, if_false, List.length_cons]
        exact Nat.le_succ_of_le ih
    | true =>
      rw [h a hpa]
      simp only [if_true, List.length_cons]
      exact Nat.succ_le_succ ih

theorem filter_notmem_mono {U vis vis' : List Nat}
    (hsub : ∀ x ∈ vis, x ∈ vis') :
    (U.filter (fun x => x ∉ vis')).length ≤
      (U.filter (fun x => x ∉ vis)).length := by
  apply filter_length_mono
  intro a ha
  rw [decide_eq_true_eq] at ha
  rw [decide_eq_true_eq]
  exact fun hv => ha (hsub a hv)

theorem filter_length_lt {U vis vis' : List Nat} {n : Nat}
    (hsub : ∀ x ∈ vis, x ∈ vis') (hn : n ∈ U) (hnv : n ∉ vis)
    (hnv' : n ∈ vis') :
    (U.filter (fun x => x ∉ vis')).length + 1 ≤
      (U.filter (fun x => x ∉ vis)).length := by
  induction U with
  | nil => simp at hn
  | cons a rest ih =>
    rw [List.filter_cons, List.filter_cons]
    by_cases ha' : a ∈ vis'
    · rw [if_neg (fun hc => (of_decide_eq_true hc) ha')]
      by_cases ha : a ∈ vis
      · rw [if_neg (fun hc => (of_decide_eq_true hc) ha)]
        rcases List.mem_cons.mp hn with rfl | hn'
        · exact absurd ha hnv
        · exact ih hn'
      · rw [if_pos (decide_eq_true ha)]
        have hm : (rest.filter (fun x => x ∉ vis')).length ≤
            (rest.filter (fun x => x ∉ vis)).length := filter_notmem_mono hsub
        simp only [List.length_cons]
        omega
    · have ha : a ∉ vis := fun hh => ha' (hsub a hh)
      rw [if_pos (decide_eq_true ha'), if_pos (decide_eq_true ha)]
      rcases List.mem_cons.mp hn with rfl | hn'
      · exact absurd hnv' ha'
      · have := ih hn'
        simp only [List.length_cons]
        omega

theorem reach_trans {η : Nat → List Nat} {u v w : Nat}
    (h1 : Reach η u v) (h2 : Reach η v w) : Reach η u w := by
  induction h2 with
  | refl => exact h1
  | tail h hm ih => exact Reach.tail ih hm

theorem reach_of_edge {η : Nat → List Nat} {x y : Nat} (h : y ∈ η x) :
    Reach η x y :=
  Reach.tail (Reach.refl x) h

/-! ### The stateful traversals compute the same visited sets as their
ghost twins (auto-vivification never changes a neighbourhood read) -/

theorem bfsq_loop_eq_pure (g0 : DirectedGraph) :
    ∀ (fuel : Nat) (g : DirectedGraph) (vis q : List Nat),
      (∀ x, nbrsMap g x = nbrsMap g0 x) →
      (bfsq_loop fuel g vis q).1 = bfsqLoopP (nbrs g0) fuel vis q := by
  intro fuel
  induction fuel with
  | zero => intro g vis q h; rfl
  | succ f ih =>
    intro g vis q h
    cases q with
    | nil => rfl
    | cons v rest =>
      cases hgo : getOutgoing g v with
      | mk inner g1 =>
        have hviv : Viv g g1 := by
          have hv := getOutgoing_viv g v
          rw [hgo] at hv
          exact hv
        have hinner : inner = nbrsMap g0 v := by
          have hf := getOutgoing_fst g v
          rw [hgo] at hf
          exact hf.trans (h v)
        rw [bfsq_loop, hgo]
        dsimp only
        rw [bfsqLoopP]
        have hmap : inner.map Prod.fst = nbrs g0 v := by rw [hinner]; rfl
        rw [hmap]
        exact ih g1 _ _ (fun x => (hviv.2.2.1 x).trans (h x))

theorem bfs_level_step_eq_pure (g0 : DirectedGraph) :
    ∀ (level : List Nat) (g : DirectedGraph) (vis next : List Nat),
      (∀ x, nbrsMap g x = nbrsMap g0 x) →
      (bfs_level_step g level vis next).2.1 =
        (bfsLevelStepP (nbrs g0) level vis next).1 ∧
      (bfs_level_step g level vis next).2.2 =
        (bfsLevelStepP (nbrs g0) level vis next).2 := by
  intro level
  induction level with
  | nil => intro g vis next h; exact ⟨rfl, rfl⟩
  | cons n rest ih =>
    intro g vis next h
    cases hgo : getOutgoing g n with
    | mk inner g1 =>
      have hviv : Viv g g1 := by
        have hv := getOutgoing_viv g n
        rw [hgo] at hv
        exact hv
      have hinner : inner = nbrsMap g0 n := by
        have hf := getOutgoing_fst g n
        rw [hgo] at hf
        exact hf.trans (h n)
      rw [bfs_level_step, hgo]
      dsimp only
      rw [bfsLevelStepP]
      have hmap : inner.map Prod.fst = nbrs g0 n := by rw [hinner]; rfl
      rw [hmap]
      exact ih g1 _ _ (fun x => (hviv.2.2.1 x).trans (h x))

theorem bfs_level_loop_eq_pure (g0 : DirectedGraph) :
    ∀ (fuel : Nat) (g : DirectedGraph) (vis level : List Nat),
      (∀ x, nbrsMap g x = nbrsMap g0 x) →
      (bfs_level_loop fuel g vis level).1 =
        bfsLevelLoopP (nbrs g0) fuel vis level := by
  intro fuel
  induction fuel with
  | zero => intro g vis level h; rfl
  | succ f ih =>
    intro g vis level h
    cases level with
    | nil => rfl
    | cons n rest =>
      cases hst : bfs_level_step g (n :: rest) vis [] with
      | mk g1 pr =>
        have hviv : Viv g g1 := by
          have hv := bfs_level_step_viv (n :: rest) g vis []
          rw [hst] at hv
          exact hv
        have heq := bfs_level_step_eq_pure g0 (n :: rest) g vis [] h
        rw [hst] at heq
        dsimp only at heq
        rw [bfs_level_loop, hst]
        dsimp only
        rw [bfsLevelLoopP]
        rw [← heq.1, ← heq.2]
        exact ih g1 _ _ (fun x => (hviv.2.2.1 x).trans (h x))

theorem dfs_go_eq_pure (g0 : DirectedGraph) :
    ∀ (fuel v : Nat) (g : DirectedGraph) (vis : List Nat),
      (∀ x, nbrsMap g x = nbrsMap g0 x) →
      (dfs_go fuel v g vis).1 = dfsGoP (nbrs g0) fuel v vis := by
  intro fuel
  induction fuel with
  | zero => intro v g vis h; rfl
  | succ f ih =>
    intro v g vis h
    cases hgo : getOutgoing g v with
    | mk inner g1 =>
      have hviv : Viv g g1 := by
        have hv := getOutgoing_viv g v
        rw [hgo] at hv
        exact hv
      have hinner : inner = nbrsMap g0 v := by
        have hf := getOutgoing_fst g v
        rw [hgo] at hf
        exact hf.trans (h v)
      rw [dfs_go, hgo]
      dsimp only
      rw [dfsGoP]
      have hmap : inner.map Prod.fst = nbrs g0 v := by rw [hinner]; rfl
      rw [hmap]
      have aux : ∀ (l : List Nat) (st : List Nat × DirectedGraph),
          (∀ x, nbrsMap st.2 x = nbrsMap g0 x) →
          (l.foldl (fun st n => if n ∈ st.1 then st else dfs_go f n st.2 st.1)
            st).1 =
          l.foldl (fun vis1 n => if n ∈ vis1 then vis1
            else dfsGoP (nbrs g0) f n vis1) st.1 := by
        intro l
        induction l with
        | nil => intro st hst; rfl
        | cons n rest ihl =>
          intro st hst
          by_cases hn : n ∈ st.1
          · simp only [List.foldl_cons, if_pos hn]
            exact ihl st hst
          · simp only [List.foldl_cons, if_neg hn]
            have hrec := ih n st.2 st.1 hst
            have hviv2 := dfs_go_viv f n st.2 st.1
            have hagree : ∀ x,
                nbrsMap (dfs_go f n st.2 st.1).2 x = nbrsMap g0 x :=
              fun x => (hviv2.2.2.1 x).trans (hst x)
            have := ihl (dfs_go f n st.2 st.1) hagree
            rw [this, hrec]
      exact aux _ _ (fun x => (hviv.2.2.1 x).trans (h x))

theorem dfsit_loop_eq_pure (g0 : DirectedGraph) :
    ∀ (fuel : Nat) (g : DirectedGraph) (vis st : List Nat),
      (∀ x, nbrsMap g x = nbrsMap g0 x) →
      (dfsit_loop fuel g vis st).1 = dfsitLoopP (nbrs g0) fuel vis st := by
  intro fuel
  induction fuel with
  | zero => intro g vis st h; rfl
  | succ f ih =>
    intro g vis st h
    cases st with
    | nil => rfl
    | cons v rest =>
      cases hgo : getOutgoing g v with
      | mk inner g1 =>
        have hviv : Viv g g1 := by
          have hv := getOutgoing_viv g v
          rw [hgo] at hv
          exact hv
        have hinner : inner = nbrsMap g0 v := by
          have hf := getOutgoing_fst g v
          rw [hgo] at hf
          exact hf.trans (h v)
        rw [dfsit_loop, hgo]
        dsimp only
        rw [dfsitLoopP]
        have hmap : inner.map Prod.fst = nbrs g0 v := by rw [hinner]; rfl
        rw [hmap]
        exact ih g1 _ _ (fun x => (hviv.2.2.1 x).trans (h x))

/-! ### Correctness of the mark-on-enqueue BFS -/

theorem bfsq_inner_spec (U : List Nat) :
    ∀ (l vis q : List Nat),
      (∀ x ∈ vis, x ∈ (bfsq_inner l vis q).1) ∧
      (∀ x ∈ (bfsq_inner l vis q).1, x ∈ vis ∨ x ∈ l) ∧
      (∀ x ∈ q, x ∈ (bfsq_inner l vis q).2) ∧
      (∀ x ∈ (bfsq_inner l vis q).2, x ∈ q ∨ x ∈ (bfsq_inner l vis q).1) ∧
      (∀ y ∈ l, y ∈ (bfsq_inner l vis q).1) ∧
      (∀ x ∈ (bfsq_inner l vis q).1, x ∉ vis → x ∈ (bfsq_inner l vis q).2) ∧
      ((∀ y ∈ l, y ∈ U) →
        (U.filter (fun x => x ∉ (bfsq_inner l vis q).1)).length +
          (bfsq_inner l vis q).2.length ≤
        (U.filter (fun x => x ∉ vis)).length + q.length) := by
  intro l
  induction l with
  | nil =>
    intro vis q
    exact ⟨fun x hx => hx, fun x hx => Or.inl hx, fun x hx => hx,
      fun x hx => Or.inl hx, fun y hy => absurd hy (List.not_mem_nil y),
      fun x hx hxv => absurd hx hxv, fun _ => Nat.le_refl _⟩
  | cons n rest ih =>
    intro vis q
    by_cases hn : n ∈ vis
    · have hred : bfsq_inner (n :: rest) vis q = bfsq_inner rest vis q := by
        rw [bfsq_inner, if_pos hn]
      rw [hred]
      obtain ⟨i1, i2, i3, i4, i5, i6, i7⟩ := ih vis q
      refine ⟨i1, ?_, i3, i4, ?_, i6, ?_⟩
      · intro x hx
        rcases i2 x hx with hx' | hx'
        · exact Or.inl hx'
        · exact Or.inr (List.mem_cons_of_mem _ hx')
      · intro y hy
        rcases List.mem_cons.mp hy with rfl | hy'
        · exact i1 y hn
        · exact i5 y hy'
      · intro hU
        exact i7 (fun y hy => hU y (List.mem_cons_of_mem _ hy))
    · have hred : bfsq_inner (n :: rest) vis q =
          bfsq_inner rest (vis ++ [n]) (q ++ [n]) := by
        rw [bfsq_inner, if_neg hn]
      rw [hred]
      obtain ⟨i1, i2, i3, i4, i5, i6, i7⟩ := ih (vis ++ [n]) (q ++ [n])
      have hsub : ∀ x ∈ vis, x ∈ vis ++ [n] :=
        fun x hx => List.mem_append_left _ hx
      have hnmem : n ∈ vis ++ [n] :=
        List.mem_append_right _ (List.mem_singleton.mpr rfl)
      refine ⟨?_, ?_, ?_, ?_, ?_, ?_, ?_⟩
      · intro x hx
        exact i1 x (hsub x hx)
      · intro x hx
        rcases i2 x hx with hx' | hx'
        · rcases List.mem_append.mp hx' with hx'' | hx''
          · exact Or.inl hx''
          · exact Or.inr (List.mem_cons.mpr
              (Or.inl (List.mem_singleton.mp hx'')))
        · exact Or.inr (List.mem_cons_of_mem _ hx')
      · intro x hx
        exact i3 x (List.mem_append_left _ hx)
      · intro x hx
        rcases i4 x hx with hx' | hx'
        · rcases List.mem_append.mp hx' with hx'' | hx''
          · exact Or.inl hx''
          · exact Or.inr (i1 x (by
              rw [List.mem_singleton.mp hx'']
              exact hnmem))
        · exact Or.inr hx'
      · intro y hy
        rcases List.mem_cons.mp hy with rfl | hy'
        · exact i1 y hnmem
        · exact i5 y hy'
      · intro x hx hxv
        by_cases hxn : x = n
        · subst hxn
          exact i3 x (List.mem_append_right _ (List.mem_singleton.mpr rfl))
        · refine i6 x hx ?_
          intro hmem
          rcases List.mem_append.mp hmem with hmem | hmem
          · exact hxv hmem
          · exact hxn (List.mem_singleton.mp hmem)
      · intro hU
        have hnU : n ∈ U := hU n (List.mem_cons_self _ _)
        have hrec := i7 (fun y hy => hU y (List.mem_cons_of_mem _ hy))
        have hlt : (U.filter (fun x => x ∉ vis ++ [n])).length + 1 ≤
            (U.filter (fun x => x ∉ vis)).length :=
          filter_length_lt hsub hnU hn hnmem
        simp only [List.length_append, List.length_cons, List.length_nil,
          List.length_singleton] at hrec ⊢
        omega

theorem bfsqLoopP_spec (η : Nat → List Nat) (U : List Nat)
    (hη : ∀ x y, y ∈ η x → y ∈ U) (v : Nat) :
    ∀ (fuel : Nat) (vis q : List Nat),
      (∀ x ∈ q, x ∈ vis) →
      (∀ x ∈ vis, Reach η v x) →
      (∀ x ∈ vis, x ∉ q → ∀ y ∈ η x, y ∈ vis) →
      (U.filter (fun x => x ∉ vis)).length + q.length + 1 ≤ fuel →
      (∀ x ∈ vis, x ∈ bfsqLoopP η fuel vis q) ∧
      (∀ x ∈ bfsqLoopP η fuel vis q, Reach η v x) ∧
      (∀ x ∈ bfsqLoopP η fuel vis q, ∀ y ∈ η x, y ∈ bfsqLoopP η fuel vis q) := by
  intro fuel
  induction fuel with
  | zero =>
    intro vis q h1 h2 h3 h4
    exact absurd h4 (by omega)
  | succ f ih =>
    intro vis q h1 h2 h3 h4
    cases q with
    | nil =>
      refine ⟨fun x hx => hx, h2, ?_⟩
      intro x hx y hy
      exact h3 x hx (List.not_mem_nil x) y hy
    | cons w rest =>
      obtain ⟨s1, s2, s3, s4, s5, s6, s7⟩ := bfsq_inner_spec U (η w) vis rest
      have hm := s7 (fun y hy => hη w y hy)
      have hq1 : ∀ x ∈ (bfsq_inner (η w) vis rest).2,
          x ∈ (bfsq_inner (η w) vis rest).1 := by
        intro x hx
        rcases s4 x hx with hx' | hx'
        · exact s1 x (h1 x (List.mem_cons_of_mem _ hx'))
        · exact hx'
      have hsound : ∀ x ∈ (bfsq_inner (η w) vis rest).1, Reach η v x := by
        intro x hx
        rcases s2 x hx with hx' | hx'
        · exact h2 x hx'
        · exact reach_trans (h2 w (h1 w (List.mem_cons_self _ _)))
            (reach_of_edge hx')
      have hclosed : ∀ x ∈ (bfsq_inner (η w) vis rest).1,
          x ∉ (bfsq_inner (η w) vis rest).2 →
          ∀ y ∈ η x, y ∈ (bfsq_inner (η w) vis rest).1 := by
        intro x hx hxq y hy
        by_cases hxv : x ∈ vis
        · by_cases hxw : x = w
          · subst hxw
            exact s5 y hy
          · have hxnotq : x ∉ w :: rest := by
              intro hmem
              rcases List.mem_cons.mp hmem with hmem | hmem
              · exact hxw hmem
              · exact hxq (s3 x hmem)
            exact s1 y (h3 x hxv hxnotq y hy)
        · exact absurd (s6 x hx hxv) hxq
      have hfuel : (U.filter
            (fun x => x ∉ (bfsq_inner (η w) vis rest).1)).length +
          (bfsq_inner (η w) vis rest).2.length + 1 ≤ f := by
        simp only [List.length_cons] at h4
        omega
      have hrec := ih (bfsq_inner (η w) vis rest).1
        (bfsq_inner (η w) vis rest).2 hq1 hsound hclosed hfuel
      exact ⟨fun x hx => hrec.1 x (s1 x hx), hrec.2.1, hrec.2.2⟩

/-! ### Correctness of the recursive DFS -/

theorem dfsGoP_spec (η : Nat → List Nat) (U : List Nat)
    (hη : ∀ x y, y ∈ η x → y ∈ U) :
    ∀ (fuel v : Nat) (vis : List Nat), v ∈ U → v ∉ vis →
      (U.filter (fun x => x ∉ vis)).length + 1 ≤ fuel →
      (∀ x ∈ vis, x ∈ dfsGoP η fuel v vis) ∧
      v ∈ dfsGoP η fuel v vis ∧
      (∀ x ∈ dfsGoP η fuel v vis, x ∈ vis ∨ Reach η v x) ∧
      (∀ x ∈ dfsGoP η fuel v vis, x ∉ vis →
        ∀ y ∈ η x, y ∈ dfsGoP η fuel v vis) := by
  intro fuel
  induction fuel with
  | zero =>
    intro v vis _ _ h
    exact absurd h (by omega)
  | succ f ih =>
    intro v vis hvU hvvis hfuel
    have aux : ∀ (l : List Nat), (∀ n ∈ l, n ∈ η v) →
        ∀ (acc : List Nat),
        (∀ x ∈ vis, x ∈ acc) → v ∈ acc →
        (∀ x ∈ acc, x ∈ vis ∨ Reach η v x) →
        (∀ x ∈ acc, x ∉ vis → x ≠ v → ∀ y ∈ η x, y ∈ acc) →
        (∀ x ∈ acc, x ∈ l.foldl (fun vis1 n => if n ∈ vis1 then vis1
            else dfsGoP η f n vis1) acc) ∧
        (∀ x ∈ l.foldl (fun vis1 n => if n ∈ vis1 then vis1
            else dfsGoP η f n vis1) acc, x ∈ vis ∨ Reach η v x) ∧
        (∀ x ∈ l.foldl (fun vis1 n => if n ∈ vis1 then vis1
            else dfsGoP η f n vis1) acc, x ∉ vis → x ≠ v →
          ∀ y ∈ η x, y ∈ l.foldl (fun vis1 n => if n ∈ vis1 then vis1
            else dfsGoP η f n vis1) acc) ∧
        (∀ n ∈ l, n ∈ l.foldl (fun vis1 n => if n ∈ vis1 then vis1
            else dfsGoP η f n vis1) acc) := by
      intro l
      induction l with
      | nil =>
        intro hl acc hv1 hv2 hv3 hv4
        exact ⟨fun x hx => hx, hv3, hv4,
          fun n hn => absurd hn (List.not_mem_nil n)⟩
      | cons n rest ihl =>
        intro hl acc hv1 hv2 hv3 hv4
        by_cases hnacc : n ∈ acc
        · simp only [List.foldl_cons, if_pos hnacc]
          obtain ⟨k1, k2, k3, k4⟩ :=
            ihl (fun m hm => hl m (List.mem_cons_of_mem _ hm)) acc hv1 hv2 hv3 hv4
          refine ⟨k1, k2, k3, ?_⟩
          intro m hm
          rcases List.mem_cons.mp hm with rfl | hm'
          · exact k1 m hnacc
          · exact k4 m hm'
        · simp only [List.foldl_cons, if_neg hnacc]
          have hnη : n ∈ η v := hl n (List.mem_cons_self _ _)
          have hnU : n ∈ U := hη v n hnη
          have hfn : (U.filter (fun x => x ∉ acc)).length + 1 ≤ f := by
            have hlt : (U.filter (fun x => x ∉ acc)).length + 1 ≤
                (U.filter (fun x => x ∉ vis)).length :=
              filter_length_lt hv1 hvU hvvis hv2
            omega
          obtain ⟨j1, j2, j3, j4⟩ := ih n acc hnU hnacc hfn
          have hrn : Reach η v n := reach_of_edge hnη
          obtain ⟨k1, k2, k3, k4⟩ :=
            ihl (fun m hm => hl m (List.mem_cons_of_mem _ hm))
              (dfsGoP η f n acc)
              (fun x hx => j1 x (hv1 x hx)) (j1 v hv2)
              (by
                intro x hx
                rcases j3 x hx with hx' | hx'
                · exact hv3 x hx'
                · exact Or.inr (reach_trans hrn hx'))
              (by
                intro x hx hxvis hxv y hy
                by_cases hxacc : x ∈ acc
                · exact j1 y (hv4 x hxacc hxvis hxv y hy)
                · exact j4 x hx hxacc y hy)
          refine ⟨fun x hx => k1 x (j1 x hx), k2, k3, ?_⟩
          intro m hm
          rcases List.mem_cons.mp hm with rfl | hm'
          · exact k1 m j2
          · exact k4 m hm'
    obtain ⟨a1, a2, a3, a4⟩ := aux (η v) (fun n hn => hn) (sadd vis v)
      (fun x hx => mem_sadd_of_mem v hx) (mem_sadd_self vis v)
      (by
        intro x hx
        rcases mem_sadd.mp hx with rfl | hx'
        · exact Or.inr (Reach.refl x)
        · exact Or.inl hx')
      (by
        intro x hx hxvis hxv
        rcases mem_sadd.mp hx with hx' | hx'
        · exact absurd hx' hxv
        · exact absurd hx' hxvis)
    refine ⟨fun x hx => a1 x (mem_sadd_of_mem v hx),
      a1 v (mem_sadd_self vis v), a2, ?_⟩
    intro x hx hxvis y hy
    by_cases hxv : x = v
    · subst hxv
      exact a4 y hy
    · exact a3 x hx hxvis hxv y hy

/-! ### Correctness of the level-batched BFS -/

theorem bfsLevelStepP_spec (η : Nat → List Nat) :
    ∀ (level vis next : List Nat),
      (∀ x ∈ vis, x ∈ (bfsLevelStepP η level vis next).1) ∧
      (∀ x ∈ level, x ∈ (bfsLevelStepP η level vis next).1) ∧
      (∀ x ∈ (bfsLevelStepP η level vis next).1, x ∈ vis ∨ x ∈ level) ∧
      (∀ x ∈ next, x ∈ (bfsLevelStepP η level vis next).2) ∧
      (∀ y ∈ (bfsLevelStepP η level vis next).2,
        y ∈ next ∨ ((∃ x ∈ level, y ∈ η x) ∧ y ∉ vis)) ∧
      (∀ x ∈ level, ∀ y ∈ η x,
        y ∈ (bfsLevelStepP η level vis next).1 ∨
        y ∈ (bfsLevelStepP η level vis next).2) := by
  intro level
  induction level with
  | nil =>
    intro vis next
    refine ⟨fun x hx => hx, ?_, fun x hx => Or.inl hx, fun x hx => hx, ?_, ?_⟩
    · intro x hx; exact absurd hx (List.not_mem_nil x)
    · intro y hy; exact Or.inl hy
    · intro x hx; exact absurd hx (List.not_mem_nil x)
  | cons n rest ih =>
    intro vis next
    obtain ⟨i1, i2, i3, i4, i5, i6⟩ :=
      ih (sadd vis n) (next ++ (η n).filter (fun x => x ∉ sadd vis n))
    have hred : bfsLevelStepP η (n :: rest) vis next =
        bfsLevelStepP η rest (sadd vis n)
          (next ++ (η n).filter (fun x => x ∉ sadd vis n)) := rfl
    rw [hred]
    refine ⟨?_, ?_, ?_, ?_, ?_, ?_⟩
    · intro x hx
      exact i1 x (mem_sadd_of_mem n hx)
    · intro x hx
      rcases List.mem_cons.mp hx with rfl | hx'
      · exact i1 x (mem_sadd_self vis x)
      · exact i2 x hx'
    · intro x hx
      rcases i3 x hx with hx' | hx'
      · rcases mem_sadd.mp hx' with rfl | hx''
        · exact Or.inr (List.mem_cons_self _ _)
        · exact Or.inl hx''
      · exact Or.inr (List.mem_cons_of_mem _ hx')
    · intro x hx
      exact i4 x (List.mem_append_left _ hx)
    · intro y hy
      rcases i5 y hy with hy' | ⟨⟨x, hx, hyx⟩, hyv⟩
      · rcases List.mem_append.mp hy' with hy'' | hy''
        · exact Or.inl hy''
        · have hf := List.mem_filter.mp hy''
          have hnv : y ∉ sadd vis n := by
            have := hf.2
            rw [decide_eq_true_eq] at this
            exact this
          exact Or.inr ⟨⟨n, List.mem_cons_self _ _, hf.1⟩,
            fun hv => hnv (mem_sadd_of_mem n hv)⟩
      · exact Or.inr ⟨⟨x, List.mem_cons_of_mem _ hx, hyx⟩,
          fun hv => hyv (mem_sadd_of_mem n hv)⟩
    · intro x hx y hy
      rcases List.mem_cons.mp hx with rfl | hx'
      · by_cases hyv : y ∈ sadd vis x
        · exact Or.inl (i1 y hyv)
        · refine Or.inr (i4 y (List.mem_append_right _ ?_))
          exact List.mem_filter.mpr ⟨hy, decide_eq_true hyv⟩
      · exact i6 x hx' y hy

theorem bfsLevelLoopP_nil (η : Nat → List Nat) :
    ∀ (f : Nat) (vis : List Nat), bfsLevelLoopP η f vis [] = vis := by
  intro f vis
  cases f <;> rfl

theorem filter_notmem_length_eq {U a b : List Nat}
    (h : ∀ x, x ∈ a ↔ x ∈ b) :
    (U.filter (fun x => x ∉ a)).length = (U.filter (fun x => x ∉ b)).length :=
  Nat.le_antisymm (filter_notmem_mono (fun x hx => (h x).mpr hx))
    (filter_notmem_mono (fun x hx => (h x).mp hx))

theorem bfsLevelLoopP_spec (η : Nat → List Nat) (U : List Nat)
    (hη : ∀ x y, y ∈ η x → y ∈ U) (v : Nat) :
    ∀ (fuel : Nat) (vis level : List Nat),
      (∀ x ∈ level, x ∈ U) →
      (∀ x ∈ vis, Reach η v x) →
      (∀ x ∈ level, Reach η v x) →
      (∀ x ∈ vis, ∀ y ∈ η x, y ∈ vis ∨ y ∈ level) →
      2 * (U.filter (fun x => x ∉ vis)).length + 2 ≤ fuel →
      (∀ x ∈ vis, x ∈ bfsLevelLoopP η fuel vis level) ∧
      (∀ x ∈ bfsLevelLoopP η fuel vis level, Reach η v x) ∧
      (∀ x ∈ bfsLevelLoopP η fuel vis level, ∀ y ∈ η x,
        y ∈ bfsLevelLoopP η fuel vis level) := by
  intro fuel
  induction fuel using Nat.strong_induction_on with
  | _ fuel ih =>
    intro vis level hlevU hvis hlev hclo hfuel
    match fuel, hfuel with
    | f + 1, hfuel =>
    cases level with
    | nil =>
      refine ⟨fun x hx => hx, hvis, ?_⟩
      intro x hx y hy
      rcases hclo x hx y hy with hy' | hy'
      · exact hy'
      · exact absurd hy' (List.not_mem_nil y)
    | cons n rest =>
      obtain ⟨s1, s2, s3, s4, s5, s6⟩ := bfsLevelStepP_spec η (n :: rest) vis []
      have hs5 : ∀ y ∈ (bfsLevelStepP η (n :: rest) vis []).2,
          (∃ x ∈ n :: rest, y ∈ η x) ∧ y ∉ vis := by
        intro y hy
        rcases s5 y hy with hy' | hy'
        · exact absurd hy' (List.not_mem_nil y)
        · exact hy'
      have hred : bfsLevelLoopP η (f + 1) vis (n :: rest) =
          bfsLevelLoopP η f (bfsLevelStepP η (n :: rest) vis []).1
            (bfsLevelStepP η (n :: rest) vis []).2 := rfl
      rw [hred]
      -- invariants at the next state
      have hnextU : ∀ y ∈ (bfsLevelStepP η (n :: rest) vis []).2, y ∈ U := by
        intro y hy
        obtain ⟨⟨x, _, hyx⟩, _⟩ := hs5 y hy
        exact hη x y hyx
      have hvis1 : ∀ x ∈ (bfsLevelStepP η (n :: rest) vis []).1,
          Reach η v x := by
        intro x hx
        rcases s3 x hx with hx' | hx'
        · exact hvis x hx'
        · exact hlev x hx'
      have hnext : ∀ y ∈ (bfsLevelStepP η (n :: rest) vis []).2,
          Reach η v y := by
        intro y hy
        obtain ⟨⟨x, hx, hyx⟩, _⟩ := hs5 y hy
        exact reach_trans (hlev x hx) (reach_of_edge hyx)
      have hclo1 : ∀ x ∈ (bfsLevelStepP η (n :: rest) vis []).1,
          ∀ y ∈ η x, y ∈ (bfsLevelStepP η (n :: rest) vis []).1 ∨
            y ∈ (bfsLevelStepP η (n :: rest) vis []).2 := by
        intro x hx y hy
        rcases s3 x hx with hx' | hx'
        · rcases hclo x hx' y hy with hy' | hy'
          · exact Or.inl (s1 y hy')
          · exact Or.inl (s2 y hy')
        · exact s6 x hx' y hy
      by_cases hnew : ∃ x ∈ n :: rest, x ∉ vis
      · obtain ⟨x0, hx0lev, hx0vis⟩ := hnew
        have hlt : (U.filter
              (fun x => x ∉ (bfsLevelStepP η (n :: rest) vis []).1)).length
            + 1 ≤ (U.filter (fun x => x ∉ vis)).length :=
          filter_length_lt s1 (hlevU x0 hx0lev) hx0vis (s2 x0 hx0lev)
        have hrec := ih f (by omega)
          (bfsLevelStepP η (n :: rest) vis []).1
          (bfsLevelStepP η (n :: rest) vis []).2
          hnextU hvis1 hnext hclo1 (by omega)
        exact ⟨fun x hx => hrec.1 x (s1 x hx), hrec.2.1, hrec.2.2⟩
      · push_neg at hnew
        have hviseq : ∀ x, x ∈ (bfsLevelStepP η (n :: rest) vis []).1 ↔
            x ∈ vis := by
          intro x
          constructor
          · intro hx
            rcases s3 x hx with hx' | hx'
            · exact hx'
            · exact hnew x hx'
          · exact fun hx => s1 x hx
        cases hnq : (bfsLevelStepP η (n :: rest) vis []).2 with
        | nil =>
          rw [bfsLevelLoopP_nil]
          refine ⟨s1, hvis1, ?_⟩
          intro x hx y hy
          rcases hclo1 x hx y hy with hy' | hy'
          · exact hy'
          · rw [hnq] at hy'
            exact absurd hy' (List.not_mem_nil y)
        | cons y0 rest2 =>
          rw [hnq] at hnextU hnext hs5 hclo1
          have hy0 : y0 ∈ y0 :: rest2 := List.mem_cons_self _ _
          have hy0U : y0 ∈ U := hnextU y0 hy0
          have hy0vis : y0 ∉ vis := (hs5 y0 hy0).2
          have hupos : 1 ≤ (U.filter (fun x => x ∉ vis)).length := by
            have hy0f : y0 ∈ U.filter (fun x => x ∉ vis) :=
              List.mem_filter.mpr ⟨hy0U, decide_eq_true hy0vis⟩
            exact List.length_pos.mpr (fun hnil => by
              rw [hnil] at hy0f
              exact absurd hy0f (List.not_mem_nil y0))
          match f, hfuel with
          | f2 + 1, hfuel =>
          obtain ⟨t1, t2, t3, t4, t5, t6⟩ := bfsLevelStepP_spec η
            (y0 :: rest2) ((bfsLevelStepP η (n :: rest) vis []).1) []
          have ht5 : ∀ y ∈ (bfsLevelStepP η (y0 :: rest2)
              ((bfsLevelStepP η (n :: rest) vis []).1) []).2,
              (∃ x ∈ y0 :: rest2, y ∈ η x) ∧
                y ∉ (bfsLevelStepP η (n :: rest) vis []).1 := by
            intro y hy
            rcases t5 y hy with hy' | hy'
            · exact absurd hy' (List.not_mem_nil y)
            · exact hy'
          have hlt2 : (U.filter (fun x => x ∉ (bfsLevelStepP η (y0 :: rest2)
                ((bfsLevelStepP η (n :: rest) vis []).1) []).1)).length + 1 ≤
              (U.filter
                (fun x => x ∉ (bfsLevelStepP η (n :: rest) vis []).1)).length :=
            filter_length_lt t1 hy0U
              (fun hm => hy0vis ((hviseq y0).mp hm)) (t2 y0 hy0)
          have heq1 : (U.filter
              (fun x => x ∉ (bfsLevelStepP η (n :: rest) vis []).1)).length =
              (U.filter (fun x => x ∉ vis)).length :=
            filter_notmem_length_eq hviseq
          have hrec := ih f2 (by omega)
            (bfsLevelStepP η (y0 :: rest2)
              ((bfsLevelStepP η (n :: rest) vis []).1) []).1
            (bfsLevelStepP η (y0 :: rest2)
              ((bfsLevelStepP η (n :: rest) vis []).1) []).2
            (by
              intro y hy
              obtain ⟨⟨x, _, hyx⟩, _⟩ := ht5 y hy
              exact hη x y hyx)
            (by
              intro x hx
              rcases t3 x hx with hx' | hx'
              · exact hvis1 x hx'
              · exact hnext x hx')
            (by
              intro y hy
              obtain ⟨⟨x, hx, hyx⟩, _⟩ := ht5 y hy
              exact reach_trans (hnext x hx) (reach_of_edge hyx))
            (by
              intro x hx y hy
              rcases t3 x hx with hx' | hx'
              · rcases hclo1 x hx' y hy with hy' | hy'
                · exact Or.inl (t1 y hy')
                · exact Or.inl (t2 y hy')
              · exact t6 x hx' y hy)
            (by omega)
          exact ⟨fun x hx => hrec.1 x (t1 x (s1 x hx)), hrec.2.1, hrec.2.2⟩

/-! ### Correctness of the iterative DFS -/

theorem push_fold_spec (vis1 : List Nat) :
    ∀ (l st : List Nat),
      (∀ z ∈ st, z ∈ l.foldl (fun s n => if n ∈ vis1 then s else n :: s) st) ∧
      (∀ z ∈ l.foldl (fun s n => if n ∈ vis1 then s else n :: s) st,
        z ∈ st ∨ (z ∈ l ∧ z ∉ vis1)) ∧
      (l.foldl (fun s n => if n ∈ vis1 then s else n :: s) st).length ≤
        st.length + l.length ∧
      (∀ y ∈ l, y ∈ vis1 ∨
        y ∈ l.foldl (fun s n => if n ∈ vis1 then s else n :: s) st) ∧
      (l.foldl (fun s n => if n ∈ vis1 then s else n :: s) st = st ∨
        ∃ y t, l.foldl (fun s n => if n ∈ vis1 then s else n :: s) st =
          y :: t ∧ y ∉ vis1 ∧ y ∈ l) := by
  intro l
  induction l with
  | nil =>
    intro st
    refine ⟨fun z hz => hz, fun z hz => Or.inl hz, by simp, ?_, Or.inl rfl⟩
    intro y hy
    exact absurd hy (List.not_mem_nil y)
  | cons n rest ih =>
    intro st
    by_cases hn : n ∈ vis1
    · simp only [List.foldl_cons, if_pos hn]
      obtain ⟨i1, i2, i3, i4, i5⟩ := ih st
      refine ⟨i1, ?_, ?_, ?_, ?_⟩
      · intro z hz
        rcases i2 z hz with hz' | ⟨hz', hzv⟩
        · exact Or.inl hz'
        · exact Or.inr ⟨List.mem_cons_of_mem _ hz', hzv⟩
      · simp only [List.length_cons]
        omega
      · intro y hy
        rcases List.mem_cons.mp hy with rfl | hy'
        · exact Or.inl hn
        · exact i4 y hy'
      · rcases i5 with h5 | ⟨y, t, heq, hyv, hyl⟩
        · exact Or.inl h5
        · exact Or.inr ⟨y, t, heq, hyv, List.mem_cons_of_mem _ hyl⟩
    · simp only [List.foldl_cons, if_neg hn]
      obtain ⟨i1, i2, i3, i4, i5⟩ := ih (n :: st)
      refine ⟨?_, ?_, ?_, ?_, ?_⟩
      · intro z hz
        exact i1 z (List.mem_cons_of_mem _ hz)
      · intro z hz
        rcases i2 z hz with hz' | ⟨hz', hzv⟩
        · rcases List.mem_cons.mp hz' with rfl | hz''
          · exact Or.inr ⟨List.mem_cons_self _ _, hn⟩
          · exact Or.inl hz''
        · exact Or.inr ⟨List.mem_cons_of_mem _ hz', hzv⟩
      · simp only [List.length_cons] at i3 ⊢
        omega
      · intro y hy
        rcases List.mem_cons.mp hy with rfl | hy'
        · exact Or.inr (i1 y (List.mem_cons_self _ _))
        · exact i4 y hy'
      · rcases i5 with h5 | ⟨y, t, heq, hyv, hyl⟩
        · exact Or.inr ⟨n, st, h5, hn, List.mem_cons_self _ _⟩
        · exact Or.inr ⟨y, t, heq, hyv, List.mem_cons_of_mem _ hyl⟩

theorem dfsitLoopP_spec (η : Nat → List Nat) (U : List Nat)
    (hη : ∀ x y, y ∈ η x → y ∈ U) (B : Nat) (hB : ∀ x, (η x).length ≤ B)
    (v : Nat) :
    ∀ (fuel : Nat) (vis st : List Nat),
      (∀ x ∈ st, x ∈ U) →
      (∀ x ∈ vis, Reach η v x) →
      (∀ x ∈ st, Reach η v x) →
      (∀ x ∈ vis, ∀ y ∈ η x, y ∈ vis ∨ y ∈ st) →
      2 * ((2 * B + 2) * (U.filter (fun x => x ∉ vis)).length + st.length)
        + 1 ≤ fuel →
      (∀ x ∈ vis, x ∈ dfsitLoopP η fuel vis st) ∧
      (∀ x ∈ dfsitLoopP η fuel vis st, Reach η v x) ∧
      (∀ x ∈ dfsitLoopP η fuel vis st, ∀ y ∈ η x,
        y ∈ dfsitLoopP η fuel vis st) := by
  intro fuel
  induction fuel using Nat.strong_induction_on with
  | _ fuel ih =>
    intro vis st hstU hvis hstR hclo hfuel
    match fuel, hfuel with
    | f + 1, hfuel =>
    cases st with
    | nil =>
      refine ⟨fun x hx => hx, hvis, ?_⟩
      intro x hx y hy
      rcases hclo x hx y hy with hy' | hy'
      · exact hy'
      · exact absurd hy' (List.not_mem_nil y)
    | cons x0 st' =>
      simp only [List.length_cons] at hfuel
      have hx0U : x0 ∈ U := hstU x0 (List.mem_cons_self _ _)
      have hx0R : Reach η v x0 := hstR x0 (List.mem_cons_self _ _)
      have hfold : ((η x0).foldl
          (fun s n => if n ∈ sadd vis x0 then s else n :: s) st').length ≤
          st'.length + B := by
        have h3 := (push_fold_spec (sadd vis x0) (η x0) st').2.2.1
        have h4 := hB x0
        omega
      by_cases hx0 : x0 ∈ vis
      · -- stale pop: the visited set does not change
        have hgoal : dfsitLoopP η (f + 1) vis (x0 :: st') =
            dfsitLoopP η f vis
              ((η x0).foldl (fun s n => if n ∈ vis then s else n :: s) st') := by
          rw [dfsitLoopP, sadd_of_mem hx0]
        rw [hgoal]
        obtain ⟨p1, p2, p3, p4, p5⟩ := push_fold_spec vis (η x0) st'
        have hstU1 : ∀ z ∈ (η x0).foldl
            (fun s n => if n ∈ vis then s else n :: s) st', z ∈ U := by
          intro z hz
          rcases p2 z hz with hz' | ⟨hz', _⟩
          · exact hstU z (List.mem_cons_of_mem _ hz')
          · exact hη x0 z hz'
        have hstR1 : ∀ z ∈ (η x0).foldl
            (fun s n => if n ∈ vis then s else n :: s) st', Reach η v z := by
          intro z hz
          rcases p2 z hz with hz' | ⟨hz', _⟩
          · exact hstR z (List.mem_cons_of_mem _ hz')
          · exact reach_trans hx0R (reach_of_edge hz')
        have hclo1 : ∀ z ∈ vis, ∀ y ∈ η z, y ∈ vis ∨
            y ∈ (η x0).foldl (fun s n => if n ∈ vis then s else n :: s) st' := by
          intro z hz y hy
          by_cases hzx : z = x0
          · subst hzx
            exact p4 y hy
          · rcases hclo z hz y hy with hy' | hy'
            · exact Or.inl hy'
            · rcases List.mem_cons.mp hy' with rfl | hy''
              · exact Or.inl hx0
              · exact Or.inr (p1 y hy'')
        rcases p5 with hp5 | ⟨y0, t, heq, hy0vis, hy0l⟩
        · -- nothing was pushed: the stack shrank
          rw [hp5]
          rw [hp5] at hclo1
          have hrec := ih f (by omega) vis st'
            (fun z hz => hstU z (List.mem_cons_of_mem _ hz)) hvis
            (fun z hz => hstR z (List.mem_cons_of_mem _ hz))
            hclo1 (by omega)
          exact hrec
        · -- something was pushed; the next iteration pops and marks it
          rw [heq]
          rw [heq] at hstU1 hstR1 hclo1 p1
          have hy0U : y0 ∈ U := hstU1 y0 (List.mem_cons_self _ _)
          have hy0R : Reach η v y0 := hstR1 y0 (List.mem_cons_self _ _)
          have hlen1 : t.length + 1 ≤ st'.length + B := by
            have h3 := (push_fold_spec vis (η x0) st').2.2.1
            have h4 := hB x0
            rw [heq] at h3
            simp only [List.length_cons] at h3
            omega
          cases f with
          | zero => exact absurd hfuel (by omega)
          | succ f2 =>
            have hgoal2 : dfsitLoopP η (f2 + 1) vis (y0 :: t) =
                dfsitLoopP η f2 (sadd vis y0)
                  ((η y0).foldl
                    (fun s n => if n ∈ sadd vis y0 then s else n :: s) t) := by
              rw [dfsitLoopP]
            rw [hgoal2]
            obtain ⟨q1, q2, q3, q4, q5⟩ := push_fold_spec (sadd vis y0) (η y0) t
            have hstU2 : ∀ z ∈ (η y0).foldl
                (fun s n => if n ∈ sadd vis y0 then s else n :: s) t,
                z ∈ U := by
              intro z hz
              rcases q2 z hz with hz' | ⟨hz', _⟩
              · exact hstU1 z (List.mem_cons_of_mem _ hz')
              · exact hη y0 z hz'
            have hvis2 : ∀ x ∈ sadd vis y0, Reach η v x := by
              intro x hx
              rcases mem_sadd.mp hx with rfl | hx'
              · exact hy0R
              · exact hvis x hx'
            have hstR2 : ∀ z ∈ (η y0).foldl
                (fun s n => if n ∈ sadd vis y0 then s else n :: s) t,
                Reach η v z := by
              intro z hz
              rcases q2 z hz with hz' | ⟨hz', _⟩
              · exact hstR1 z (List.mem_cons_of_mem _ hz')
              · exact reach_trans hy0R (reach_of_edge hz')
            have hclo2 : ∀ z ∈ sadd vis y0, ∀ y ∈ η z, y ∈ sadd vis y0 ∨
                y ∈ (η y0).foldl
                  (fun s n => if n ∈ sadd vis y0 then s else n :: s) t := by
              intro z hz y hy
              rcases mem_sadd.mp hz with rfl | hz'
              · exact q4 y hy
              · rcases hclo1 z hz' y hy with hy' | hy'
                · exact Or.inl (mem_sadd_of_mem y0 hy')
                · rcases List.mem_cons.mp hy' with rfl | hy''
                  · exact Or.inl (mem_sadd_self vis y)
                  · exact Or.inr (q1 y hy'')
            have hlt : (U.filter (fun x => x ∉ sadd vis y0)).length + 1 ≤
                (U.filter (fun x => x ∉ vis)).length :=
              filter_length_lt (fun x hx => mem_sadd_of_mem y0 hx) hy0U
                hy0vis (mem_sadd_self vis y0)
            have hmul : (2 * B + 2) *
                (U.filter (fun x => x ∉ sadd vis y0)).length + (2 * B + 2) ≤
                (2 * B + 2) * (U.filter (fun x => x ∉ vis)).length := by
              have := Nat.mul_le_mul_left (2 * B + 2) hlt
              rw [Nat.mul_add, Nat.mul_one] at this
              exact this
            have hlen2 : ((η y0).foldl
                (fun s n => if n ∈ sadd vis y0 then s else n :: s) t).length ≤
                t.length + B := by
              have h4 := hB y0
              omega
            have hrec := ih f2 (by omega) (sadd vis y0)
              ((η y0).foldl (fun s n => if n ∈ sadd vis y0 then s else n :: s) t)
              hstU2 hvis2 hstR2 hclo2 (by omega)
            exact ⟨fun x hx => hrec.1 x (mem_sadd_of_mem y0 hx),
              hrec.2.1, hrec.2.2⟩
      · -- fresh pop: the popped vertex is marked now
        have hgoal : dfsitLoopP η (f + 1) vis (x0 :: st') =
            dfsitLoopP η f (sadd vis x0)
              ((η x0).foldl
                (fun s n => if n ∈ sadd vis x0 then s else n :: s) st') := by
          rw [dfsitLoopP]
        rw [hgoal]
        obtain ⟨p1, p2, p3, p4, p5⟩ := push_fold_spec (sadd vis x0) (η x0) st'
        have hstU1 : ∀ z ∈ (η x0).foldl
            (fun s n => if n ∈ sadd vis x0 then s else n :: s) st', z ∈ U := by
          intro z hz
          rcases p2 z hz with hz' | ⟨hz', _⟩
          · exact hstU z (List.mem_cons_of_mem _ hz')
          · exact hη x0 z hz'
        have hvis1 : ∀ x ∈ sadd vis x0, Reach η v x := by
          intro x hx
          rcases mem_sadd.mp hx with rfl | hx'
          · exact hx0R
          · exact hvis x hx'
        have hstR1 : ∀ z ∈ (η x0).foldl
            (fun s n => if n ∈ sadd vis x0 then s else n :: s) st',
            Reach η v z := by
          intro z hz
          rcases p2 z hz with hz' | ⟨hz', _⟩
          · exact hstR z (List.mem_cons_of_mem _ hz')
          · exact reach_trans hx0R (reach_of_edge hz')
        have hclo1 : ∀ z ∈ sadd vis x0, ∀ y ∈ η z, y ∈ sadd vis x0 ∨
            y ∈ (η x0).foldl
              (fun s n => if n ∈ sadd vis x0 then s else n :: s) st' := by
          intro z hz y hy
          rcases mem_sadd.mp hz with rfl | hz'
          · exact p4 y hy
          · rcases hclo z hz' y hy with hy' | hy'
            · exact Or.inl (mem_sadd_of_mem x0 hy')
            · rcases List.mem_cons.mp hy' with rfl | hy''
              · exact Or.inl (mem_sadd_self vis y)
              · exact Or.inr (p1 y hy'')
        have hlt : (U.filter (fun x => x ∉ sadd vis x0)).length + 1 ≤
            (U.filter (fun x => x ∉ vis)).length :=
          filter_length_lt (fun x hx => mem_sadd_of_mem x0 hx) hx0U
            hx0 (mem_sadd_self vis x0)
        have hmul : (2 * B + 2) *
            (U.filter (fun x => x ∉ sadd vis x0)).length + (2 * B + 2) ≤
            (2 * B + 2) * (U.filter (fun x => x ∉ vis)).length := by
          have := Nat.mul_le_mul_left (2 * B + 2) hlt
          rw [Nat.mul_add, Nat.mul_one] at this
          exact this
        have hrec := ih f (by omega) (sadd vis x0)
          ((η x0).foldl (fun s n => if n ∈ sadd vis x0 then s else n :: s) st')
          hstU1 hvis1 hstR1 hclo1 (by omega)
        exact ⟨fun x hx => hrec.1 x (mem_sadd_of_mem x0 hx),
          hrec.2.1, hrec.2.2⟩

/-! ### Instantiating the pure specs at the top-level traversals -/

theorem plookup_length_le (m : Outer) (x : Nat) :
    ((plookup m x).getD []).length ≤ (edgesOf m).length := by
  induction m with
  | nil => simp [plookup]
  | cons p rest ih =>
    cases p with
    | mk k inner =>
      by_cases hk : k = x
      · rw [plookup, if_pos hk]
        simp only [Option.getD_some, edgesOf_cons, List.length_append]
        have hlen : (triplesOf k inner).length = inner.length := by
          simp [triplesOf]
        omega
      · rw [plookup, if_neg hk]
        simp only [edgesOf_cons, List.length_append]
        omega

theorem nbrs_length_le (g : DirectedGraph) (x : Nat) :
    (nbrs g x).length ≤ (edges g).length := by
  have h := plookup_length_le g.outgoing_edges x
  have h2 : (nbrs g x).length =
      ((plookup g.outgoing_edges x).getD []).length := by
    simp [nbrs, nbrsMap]
  rw [edges_eq_edgesOf, h2]
  exact h

theorem mem_allDest_of_nbrs {g : DirectedGraph} {a y : Nat}
    (h : y ∈ nbrs g a) : y ∈ allDest g := by
  unfold nbrs at h
  obtain ⟨q, hq, rfl⟩ := List.mem_map.mp h
  unfold allDest
  exact List.mem_map_of_mem (fun t : Nat × Nat × Int => t.2.1)
    (mem_edges_of_nbrsMap hq)

theorem reach_mem_of_closed {η : Nat → List Nat} {v : Nat} {S : List Nat}
    (hv : v ∈ S) (hclo : ∀ x ∈ S, ∀ y ∈ η x, y ∈ S) :
    ∀ x, Reach η v x → x ∈ S := by
  intro x hx
  induction hx with
  | refl => exact hv
  | tail h hm ih => exact hclo _ ih _ hm

theorem bfsLevelLoopP_grow (η : Nat → List Nat) :
    ∀ (fuel : Nat) (vis level : List Nat), ∀ x ∈ vis,
      x ∈ bfsLevelLoopP η fuel vis level := by
  intro fuel
  induction fuel with
  | zero => intro vis level x hx; exact hx
  | succ f ih =>
    intro vis level x hx
    cases level with
    | nil => exact hx
    | cons n rest =>
      have hred : bfsLevelLoopP η (f + 1) vis (n :: rest) =
          bfsLevelLoopP η f (bfsLevelStepP η (n :: rest) vis []).1
            (bfsLevelStepP η (n :: rest) vis []).2 := rfl
      rw [hred]
      exact ih _ _ x
        ((bfsLevelStepP_spec η (n :: rest) vis []).1 x hx)

theorem bfsLevelLoopP_start (η : Nat → List Nat) (f : Nat)
    (vis level : List Nat) :
    ∀ x ∈ level, x ∈ bfsLevelLoopP η (f + 1) vis level := by
  intro x hx
  cases level with
  | nil => exact absurd hx (List.not_mem_nil x)
  | cons n rest =>
    have hred : bfsLevelLoopP η (f + 1) vis (n :: rest) =
        bfsLevelLoopP η f (bfsLevelStepP η (n :: rest) vis []).1
          (bfsLevelStepP η (n :: rest) vis []).2 := rfl
    rw [hred]
    exact bfsLevelLoopP_grow η f _ _ x
      ((bfsLevelStepP_spec η (n :: rest) vis []).2.1 x hx)

theorem dfsitLoopP_grow (η : Nat → List Nat) :
    ∀ (fuel : Nat) (vis st : List Nat), ∀ x ∈ vis,
      x ∈ dfsitLoopP η fuel vis st := by
  intro fuel
  induction fuel with
  | zero => intro vis st x hx; exact hx
  | succ f ih =>
    intro vis st x hx
    cases st with
    | nil => exact hx
    | cons n rest =>
      have hred : dfsitLoopP η (f + 1) vis (n :: rest) =
          dfsitLoopP η f (sadd vis n)
            ((η n).foldl (fun s m => if m ∈ sadd vis n then s else m :: s)
              rest) := rfl
      rw [hred]
      exact ih _ _ x (mem_sadd_of_mem n hx)

theorem dfsitLoopP_start (η : Nat → List Nat) (f : Nat) (vis : List Nat)
    (n : Nat) (rest : List Nat) :
    n ∈ dfsitLoopP η (f + 1) vis (n :: rest) := by
  have hred : dfsitLoopP η (f + 1) vis (n :: rest) =
      dfsitLoopP η f (sadd vis n)
        ((η n).foldl (fun s m => if m ∈ sadd vis n then s else m :: s)
          rest) := rfl
  rw [hred]
  exact dfsitLoopP_grow η f _ _ n (mem_sadd_self vis n)

/-- C9: for every graph and every vertex `v` present in its vertex set, each
of the four traversals (`breadth_first_search`, `breadth_first_search_queue`,
`depth_first_search` with the default fresh visited set, and
`depth_first_search_iterate`) visits a vertex `x` exactly when `x` is
reachable from `v` along stored directed edges (including `v` itself) — so
all four return the same set, the reachable set of `v`. -/
theorem c9_traversals_agree (g : DirectedGraph) (v : Nat)
    (_hv : v ∈ vertices g) (x : Nat) :
    (x ∈ (breadth_first_search g v).1 ↔ Reach (nbrs g) v x) ∧
    (x ∈ (breadth_first_search_queue g v).1 ↔ Reach (nbrs g) v x) ∧
    (x ∈ (depth_first_search g v).1 ↔ Reach (nbrs g) v x) ∧
    (x ∈ (depth_first_search_iterate g v).1 ↔ Reach (nbrs g) v x) := by
  have hη : ∀ a y, y ∈ nbrs g a → y ∈ v :: allDest g :=
    fun a y hy => List.mem_cons_of_mem _ (mem_allDest_of_nbrs hy)
  have hUlen : ((v :: allDest g) : List Nat).length = (edges g).length + 1 := by
    simp [allDest]
  have hfilter : ∀ vis : List Nat,
      ((v :: allDest g).filter (fun a => a ∉ vis)).length ≤
        (edges g).length + 1 := by
    intro vis
    exact le_trans (List.filter_sublist _).length_le (le_of_eq hUlen)
  have hP : (edges g).length + 2 ≤
      ((edges g).length + 2) * ((edges g).length + 2) :=
    Nat.le_mul_of_pos_left _ (by omega)
  have hF : travFuel g =
      4 * (((edges g).length + 2) * ((edges g).length + 2)) + 8 := rfl
  obtain ⟨f0, hf0⟩ : ∃ f0, travFuel g = f0 + 1 :=
    ⟨4 * (((edges g).length + 2) * ((edges g).length + 2)) + 7, by
      rw [hF]⟩
  have hb1v : ∀ a ∈ ([v] : List Nat), a ∈ v :: allDest g := by
    intro a ha
    rw [List.mem_singleton] at ha
    subst ha
    exact List.mem_cons_self _ _
  have hb1r : ∀ a ∈ ([v] : List Nat), Reach (nbrs g) v a := by
    intro a ha
    rw [List.mem_singleton] at ha
    subst ha
    exact Reach.refl a
  have hnil1 : ∀ a ∈ ([] : List Nat), Reach (nbrs g) v a :=
    fun a ha => absurd ha (List.not_mem_nil a)
  -- the level-batched BFS
  have hbfs : (breadth_first_search g v).1 =
      bfsLevelLoopP (nbrs g) (travFuel g) [] [v] := by
    unfold breadth_first_search
    exact bfs_level_loop_eq_pure g (travFuel g) g [] [v] (fun _ => rfl)
  have hfuelb : 2 * ((v :: allDest g).filter
      (fun a => a ∉ ([] : List Nat))).length + 2 ≤ travFuel g := by
    have h1 := hfilter []
    rw [hF]
    omega
  obtain ⟨b1, b2, b3⟩ := bfsLevelLoopP_spec (nbrs g) (v :: allDest g) hη v
    (travFuel g) [] [v] hb1v hnil1 hb1r
    (fun a ha => absurd ha (List.not_mem_nil a)) hfuelb
  have hvmemb : v ∈ bfsLevelLoopP (nbrs g) (travFuel g) [] [v] := by
    rw [hf0]
    exact bfsLevelLoopP_start (nbrs g) f0 [] [v] v (List.mem_singleton.mpr rfl)
  have part1 : x ∈ (breadth_first_search g v).1 ↔ Reach (nbrs g) v x := by
    rw [hbfs]
    exact ⟨b2 x, fun hr => reach_mem_of_closed hvmemb b3 x hr⟩
  -- the queue-based BFS
  have hqeq : (breadth_first_search_queue g v).1 =
      bfsqLoopP (nbrs g) (travFuel g) [v] [v] := by
    unfold breadth_first_search_queue
    exact bfsq_loop_eq_pure g (travFuel g) g [v] [v] (fun _ => rfl)
  have hq3 : ∀ a ∈ ([v] : List Nat), a ∉ ([v] : List Nat) →
      ∀ y ∈ nbrs g a, y ∈ ([v] : List Nat) :=
    fun a ha hna => absurd ha hna
  have hfuelq : ((v :: allDest g).filter
      (fun a => a ∉ ([v] : List Nat))).length + ([v] : List Nat).length + 1 ≤
      travFuel g := by
    have h1 := hfilter [v]
    rw [hF]
    simp only [List.length_cons, List.length_nil]
    omega
  obtain ⟨q1, q2, q3⟩ := bfsqLoopP_spec (nbrs g) (v :: allDest g) hη v
    (travFuel g) [v] [v] (fun a ha => ha) hb1r hq3 hfuelq
  have part2 : x ∈ (breadth_first_search_queue g v).1 ↔
      Reach (nbrs g) v x := by
    rw [hqeq]
    exact ⟨q2 x, fun hr => reach_mem_of_closed
      (q1 v (List.mem_singleton.mpr rfl)) q3 x hr⟩
  -- the recursive DFS
  have hdeq : (depth_first_search g v).1 =
      dfsGoP (nbrs g) (travFuel g) v [] := by
    unfold depth_first_search
    exact dfs_go_eq_pure g (travFuel g) v g [] (fun _ => rfl)
  have hfueld : ((v :: allDest g).filter
      (fun a => a ∉ ([] : List Nat))).length + 1 ≤ travFuel g := by
    have h1 := hfilter []
    rw [hF]
    omega
  obtain ⟨d1, d2, d3, d4⟩ := dfsGoP_spec (nbrs g) (v :: allDest g) hη
    (travFuel g) v [] (List.mem_cons_self _ _) (List.not_mem_nil v) hfueld
  have part3 : x ∈ (depth_first_search g v).1 ↔ Reach (nbrs g) v x := by
    rw [hdeq]
    constructor
    · intro hx
      rcases d3 x hx with hx' | hx'
      · exact absurd hx' (List.not_mem_nil x)
      · exact hx'
    · intro hr
      exact reach_mem_of_closed d2
        (fun a ha y hy => d4 a ha (List.not_mem_nil a) y hy) x hr
  -- the iterative DFS
  have hieq : (depth_first_search_iterate g v).1 =
      dfsitLoopP (nbrs g) (travFuel g) [] [v] := by
    unfold depth_first_search_iterate
    exact dfsit_loop_eq_pure g (travFuel g) g [] [v] (fun _ => rfl)
  have hfueli : 2 * ((2 * (edges g).length + 2) *
      ((v :: allDest g).filter (fun a => a ∉ ([] : List Nat))).length +
      ([v] : List Nat).length) + 1 ≤ travFuel g := by
    have h1 := hfilter []
    have hm1 : (2 * (edges g).length + 2) *
        ((v :: allDest g).filter (fun a => a ∉ ([] : List Nat))).length ≤
        (2 * (edges g).length + 2) * ((edges g).length + 1) :=
      Nat.mul_le_mul_left _ h1
    have hm2 : (2 * (edges g).length + 2) * ((edges g).length + 1) =
        2 * ((edges g).length * (edges g).length) + 4 * (edges g).length +
          2 := by
      ring
    have hm3 : ((edges g).length + 2) * ((edges g).length + 2) =
        (edges g).length * (edges g).length + 4 * (edges g).length + 4 := by
      ring
    rw [hF]
    simp only [List.length_cons, List.length_nil]
    omega
  obtain ⟨i1, i2, i3⟩ := dfsitLoopP_spec (nbrs g) (v :: allDest g) hη
    (edges g).length (nbrs_length_le g) v (travFuel g) [] [v]
    hb1v hnil1 hb1r (fun a ha => absurd ha (List.not_mem_nil a)) hfueli
  have hvmemi : v ∈ dfsitLoopP (nbrs g) (travFuel g) [] [v] := by
    rw [hf0]
    exact dfsitLoopP_start (nbrs g) f0 [] v []
  have part4 : x ∈ (depth_first_search_iterate g v).1 ↔
      Reach (nbrs g) v x := by
    rw [hieq]
    exact ⟨i2 x, fun hr => reach_mem_of_closed hvmemi i3 x hr⟩
  exact ⟨part1, part2, part3, part4⟩

/-- Witness for C9: on the chain `1 → 2 → 3`, vertex `1` is present and the
level-batched BFS from `1` visits `3` exactly because `3` is reachable. -/
theorem c9_traversals_agree_witness :
    1 ∈ vertices chainGraph ∧
    (3 ∈ (breadth_first_search chainGraph 1).1 ↔
      Reach (nbrs chainGraph) 1 3) :=
  ⟨by decide, (c9_traversals_agree chainGraph 1 (by decide) 3).1⟩

/-! ### C10 groundwork: the distance order, initial maps, and
`construct_path` on a self pair -/

theorem dlook_eq {dist : List (Nat × DVal)} {x : Nat} {v : DVal}
    (h : plookup dist x = some v) : dlook dist x = v := by
  unfold dlook
  rw [h]
  rfl

theorem dvLe_refl (a : DVal) : DvLe a a := by
  cases a with
  | inf => trivial
  | fin x => exact le_refl x

theorem dvLe_trans {a b c : DVal} (h1 : DvLe a b) (h2 : DvLe b c) :
    DvLe a c := by
  cases a <;> cases b <;> cases c <;> simp_all [DvLe] <;> omega

theorem dvLe_of_lt_false {a b : DVal} (h : dvalLt a b = false) : DvLe b a := by
  cases a <;> cases b <;> simp_all [DvLe, dvalLt] <;> omega

theorem lt_false_of_dvLe {a b : DVal} (h : DvLe a b) :
    dvalLt b a = false := by
  cases a <;> cases b <;> simp_all [DvLe, dvalLt] <;> omega

theorem dvLe_of_lt_true {a b : DVal} (h : dvalLt a b = true) : DvLe a b := by
  cases a <;> cases b <;> simp_all [DvLe, dvalLt] <;> omega

theorem dvLe_add {a b : DVal} (w : Int) (h : DvLe a b) :
    DvLe (dvalAdd a w) (dvalAdd b w) := by
  cases a <;> cases b <;> simp_all [DvLe, dvalAdd] <;> omega

theorem dvalLt_add_true {dsrc dv : DVal} {w : Int}
    (h : dvalLt (dvalAdd dsrc w) dv = true) :
    ∃ cu, dsrc = .fin cu ∧ dvalLt (.fin (cu + w)) dv = true := by
  cases dsrc with
  | inf => simp [dvalAdd, dvalLt] at h
  | fin cu => exact ⟨cu, rfl, h⟩

theorem plookup_map_const {β γ : Type} (c : γ) :
    ∀ (m : List (Nat × β)) (k : Nat),
      plookup (m.map (fun p => (p.1, c))) k =
        (plookup m k).map (fun _ => c) := by
  intro m
  induction m with
  | nil => intro k; rfl
  | cons p rest ih =>
    intro k
    cases p with
    | mk a b =>
      by_cases hp : a = k
      · subst hp
        have h1 : plookup (((a, b) :: rest).map (fun p => (p.1, c))) a =
            some c := by
          simp only [List.map_cons]
          rw [plookup, if_pos rfl]
        have h2 : plookup ((a, b) :: rest) a = some b := by
          rw [plookup, if_pos rfl]
        rw [h1, h2]
        rfl
      · have h1 : plookup (((a, b) :: rest).map (fun p => (p.1, c))) k =
            plookup (rest.map (fun p => (p.1, c))) k := by
          simp only [List.map_cons]
          rw [plookup, if_neg hp]
        have h2 : plookup ((a, b) :: rest) k = plookup rest k := by
          rw [plookup, if_neg hp]
        rw [h1, h2]
        exact ih k

theorem pkeys_map_const {β γ : Type} (c : γ) (m : List (Nat × β)) :
    pkeys (m.map (fun p => (p.1, c))) = pkeys m := by
  induction m with
  | nil => rfl
  | cons p rest ih =>
    simp only [List.map_cons, pkeys_cons]
    rw [ih]

theorem plookup_btInit (g : DirectedGraph) (s : Nat) (hs : s ∈ vertices g) :
    plookup (btInit g) s = some none := by
  have h := plookup_map_const (none : Option Nat) g.vertex_data s
  have hsome : (plookup g.vertex_data s).isSome := plookup_isSome_iff.mpr hs
  obtain ⟨y, hy⟩ := Option.isSome_iff_exists.mp hsome
  unfold btInit
  rw [h, hy]
  rfl

theorem plookup_distInit_self (g : DirectedGraph) (s : Nat) :
    plookup (distInit g s) s = some (DVal.fin 0) := by
  unfold distInit
  exact plookup_pset_self _ _ _

theorem pkeys_distInit (g : DirectedGraph) (s : Nat) (hs : s ∈ vertices g) :
    pkeys (distInit g s) = pkeys g.vertex_data := by
  unfold distInit
  have hbase : pkeys (g.vertex_data.map (fun p => (p.1, DVal.inf))) =
      pkeys g.vertex_data := pkeys_map_const _ _
  rw [pkeys_pset_of_mem _ (by rw [hbase]; exact hs), hbase]

theorem distInit_lookup (g : DirectedGraph) (s x : Nat) :
    dlook (distInit g s) x = .inf ∨
      (x = s ∧ dlook (distInit g s) x = .fin 0) := by
  by_cases hx : x = s
  · subst hx
    exact Or.inr ⟨rfl, dlook_eq (plookup_distInit_self g x)⟩
  · left
    unfold distInit dlook
    rw [plookup_pset_ne _ _ hx,
      plookup_map_const (DVal.inf) g.vertex_data x]
    cases plookup g.vertex_data x <;> rfl

theorem construct_path_self (bt : List (Nat × Option Nat)) (s : Nat)
    (h : plookup bt s = some none) : construct_path bt s s = .ok [s] := by
  have hd : dget bt s = none := by
    unfold dget
    rw [h]
    rfl
  unfold construct_path
  rw [hd]
  have hgo : construct_path_go bt (bt.length + 1) [s] none = .ok [s] := rfl
  rw [hgo]
  dsimp only
  rw [if_pos rfl]

/-! ### C10, BFS part: the start vertex's backtrack entry is never
overwritten (it is visited from the beginning) -/

theorem bfs_sp_inner_btfix (v e s : Nat) :
    ∀ (l vis q : List Nat) (bt : List (Nat × Option Nat)),
      s ∈ vis → plookup bt s = some none →
      s ∈ (bfs_sp_inner v e l vis q bt).1 ∧
      plookup (bfs_sp_inner v e l vis q bt).2.2.1 s = some none := by
  intro l
  induction l with
  | nil =>
    intro vis q bt hs hbt
    exact ⟨hs, hbt⟩
  | cons n rest ih =>
    intro vis q bt hs hbt
    by_cases hn : n ∈ vis
    · rw [bfs_sp_inner, if_pos hn]
      exact ih vis q bt hs hbt
    · have hne : s ≠ n := fun h => hn (h ▸ hs)
      have hs1 : s ∈ vis ++ [n] := List.mem_append_left _ hs
      have hbt1 : plookup (pset bt n (some v)) s = some none := by
        rw [plookup_pset_ne _ _ hne]
        exact hbt
      by_cases he : n = e
      · rw [bfs_sp_inner, if_neg hn]
        dsimp only
        rw [if_pos he]
        exact ⟨hs1, hbt1⟩
      · rw [bfs_sp_inner, if_neg hn]
        dsimp only
        rw [if_neg he]
        exact ih (vis ++ [n]) (q ++ [n]) (pset bt n (some v)) hs1 hbt1

theorem bfs_sp_loop_btfix (e s : Nat) :
    ∀ (fuel : Nat) (g : DirectedGraph) (vis q : List Nat)
      (bt : List (Nat × Option Nat)),
      s ∈ vis → plookup bt s = some none →
      plookup (bfs_sp_loop e fuel g vis q bt).2 s = some none := by
  intro fuel
  induction fuel with
  | zero => intro g vis q bt _ hbt; exact hbt
  | succ f ih =>
    intro g vis q bt hs hbt
    cases q with
    | nil => exact hbt
    | cons v rest =>
      rw [bfs_sp_loop]
      cases hgo : getOutgoing g v with
      | mk inner g1 =>
        dsimp only
        obtain ⟨hs2, hbt2⟩ :=
          bfs_sp_inner_btfix v e s (inner.map Prod.fst) vis rest bt hs hbt
        by_cases hflag :
            (bfs_sp_inner v e (inner.map Prod.fst) vis rest bt).2.2.2 = true
        · rw [if_pos hflag]
          exact hbt2
        · rw [if_neg hflag]
          exact ih g1 _ _ _ hs2 hbt2

/-! ### C10, Dijkstra part: the loop never raises on an endpoint-closed
graph and never overwrites the start's backtrack entry -/

theorem heapMin_mem : ∀ (xs : List (Int × Nat)) (x : Int × Nat),
    heapMin x xs ∈ x :: xs := by
  intro xs
  induction xs with
  | nil => intro x; exact List.mem_singleton.mpr rfl
  | cons y ys ih =>
    intro x
    have hred : heapMin x (y :: ys) =
        heapMin (if lexLt y x then y else x) ys := rfl
    rw [hred]
    have h := ih (if lexLt y x then y else x)
    rcases List.mem_cons.mp h with h' | h'
    · rw [h']
      by_cases hxy : lexLt y x = true
      · rw [if_pos hxy]
        exact List.mem_cons_of_mem _ (List.mem_cons_self _ _)
      · rw [if_neg hxy]
        exact List.mem_cons_self _ _
    · exact List.mem_cons_of_mem _ (List.mem_cons_of_mem _ h')

theorem heapPop_mem {heap : List (Int × Nat)} {m : Int × Nat}
    {rest : List (Int × Nat)} (h : heapPop heap = some (m, rest)) :
    m ∈ heap := by
  cases heap with
  | nil => simp [heapPop] at h
  | cons x xs =>
    rw [heapPop] at h
    injection h with h1
    have hm : heapMin x xs = m := congrArg Prod.fst h1
    rw [← hm]
    exact heapMin_mem xs x

theorem dij_relax_inv (s src : Nat) (sd : Int) :
    ∀ (inner : Inner) (vis : List Nat) (dist : List (Nat × DVal))
      (bt : List (Nat × Option Nat)) (heap : List (Int × Nat)),
      s ∈ vis →
      (∀ p ∈ inner, p.1 ∈ pkeys dist) →
      ∃ dist1 bt1 heap2,
        dij_relax src sd inner vis dist bt heap = .ok (dist1, bt1, heap2) ∧
        pkeys dist1 = pkeys dist ∧
        plookup bt1 s = plookup bt s := by
  intro inner
  induction inner with
  | nil =>
    intro vis dist bt heap _ _
    exact ⟨dist, bt, heap, rfl, rfl, rfl⟩
  | cons p rest ih =>
    intro vis dist bt heap hs hcl
    cases p with
    | mk des w =>
      by_cases hdes : des ∈ vis
      · rw [dij_relax, if_pos hdes]
        exact ih vis dist bt heap hs
          (fun q hq => hcl q (List.mem_cons_of_mem _ hq))
      · have hks : des ∈ pkeys dist := hcl (des, w) (List.mem_cons_self _ _)
        have hsome : (plookup dist des).isSome := plookup_isSome_iff.mpr hks
        obtain ⟨dv, hdv⟩ := Option.isSome_iff_exists.mp hsome
        rw [dij_relax, if_neg hdes, hdv]
        dsimp only
        by_cases hlt : dvalLt (.fin (sd + w)) dv = true
        · rw [if_pos hlt]
          have hne : s ≠ des := fun h => hdes (h ▸ hs)
          obtain ⟨d1, b1, h2, heq, hk, hbt⟩ := ih vis
            (pset dist des (.fin (sd + w))) (pset bt des (some src))
            (heap ++ [(sd + w, des)]) hs
            (fun q hq => by
              rw [pkeys_pset_of_mem _ hks]
              exact hcl q (List.mem_cons_of_mem _ hq))
          refine ⟨d1, b1, h2, heq, ?_, ?_⟩
          · rw [hk, pkeys_pset_of_mem _ hks]
          · rw [hbt, plookup_pset_ne _ _ hne]
        · rw [if_neg hlt]
          exact ih vis dist bt heap hs
            (fun q hq => hcl q (List.mem_cons_of_mem _ hq))

theorem dij_loop_ok (g0 : DirectedGraph) (s : Nat) :
    ∀ (fuel : Nat) (g : DirectedGraph) (vis : List Nat)
      (heap : List (Int × Nat)) (dist : List (Nat × DVal))
      (bt : List (Nat × Option Nat)),
      (∀ x, nbrsMap g x = nbrsMap g0 x) →
      (s ∈ vis ∨ ∀ pr ∈ heap, pr.2 = s) →
      (∀ (x : Nat) (p : Nat × Int), p ∈ nbrsMap g0 x → p.1 ∈ pkeys dist) →
      plookup bt s = some none →
      ∃ bt1 g1, dij_loop fuel g vis heap dist bt = (.ok bt1, g1) ∧
        plookup bt1 s = some none := by
  intro fuel
  induction fuel with
  | zero =>
    intro g vis heap dist bt _ _ _ hbt
    exact ⟨bt, g, rfl, hbt⟩
  | succ f ih =>
    intro g vis heap dist bt hnb hvis hcl hbt
    rw [dij_loop]
    cases hp : heapPop heap with
    | none => exact ⟨bt, g, rfl, hbt⟩
    | some pr =>
      obtain ⟨⟨sd, src⟩, heap1⟩ := pr
      dsimp only
      have hsrc : s ∈ sadd vis src := by
        rcases hvis with hv | hv
        · exact mem_sadd_of_mem src hv
        · have heqs : src = s := hv (sd, src) (heapPop_mem hp)
          rw [heqs]
          exact mem_sadd_self vis s
      cases hgo : getOutgoing g src with
      | mk inner g1 =>
        have hviv : Viv g g1 := by
          have hv := getOutgoing_viv g src
          rw [hgo] at hv
          exact hv
        have hinner : inner = nbrsMap g0 src := by
          have hf := getOutgoing_fst g src
          rw [hgo] at hf
          exact hf.trans (hnb src)
        dsimp only
        obtain ⟨d1, b1, h2, heqr, hk, hbt1⟩ :=
          dij_relax_inv s src sd inner (sadd vis src) dist bt heap1 hsrc
            (fun p hp2 => hcl src p (hinner ▸ hp2))
        rw [heqr]
        exact ih g1 (sadd vis src) h2 d1 b1
          (fun x => (hviv.2.2.1 x).trans (hnb x))
          (Or.inl hsrc)
          (fun x p hp2 => by rw [hk]; exact hcl x p hp2)
          (by rw [hbt1]; exact hbt)

/-! ### C10, walk theory: composition, splitting, reachability, and
shortening below the vertex count -/

theorem plookup_nbrsMap_of_mem_edges {g : DirectedGraph} (hwf : WF g)
    {t : Nat × Nat × Int} (ht : t ∈ edges g) :
    plookup (nbrsMap g t.1) t.2.1 = some t.2.2 := by
  rw [edges_eq_edgesOf] at ht
  obtain ⟨p, hp, q, hq, heq⟩ := mem_edgesOf.mp ht
  subst heq
  have houter : plookup g.outgoing_edges p.1 = some p.2 :=
    plookup_of_mem_nodup hwf.1 hp
  have hnb : nbrsMap g p.1 = p.2 := by
    unfold nbrsMap
    rw [houter]
    rfl
  dsimp only
  rw [hnb]
  exact plookup_of_mem_nodup (hwf.2.1 p hp) hq

theorem isWalk_single {g : DirectedGraph} {u v : Nat} {w : Int}
    (h : plookup (nbrsMap g u) v = some w) : IsWalk g u [v] v w :=
  ⟨w, 0, h, ⟨rfl, rfl⟩, by omega⟩

theorem isWalk_append {g : DirectedGraph} :
    ∀ (l1 : List Nat) {a m : Nat} {c1 : Int} {l2 : List Nat} {b : Nat}
      {c2 : Int}, IsWalk g a l1 m c1 → IsWalk g m l2 b c2 →
      IsWalk g a (l1 ++ l2) b (c1 + c2) := by
  intro l1
  induction l1 with
  | nil =>
    intro a m c1 l2 b c2 h1 h2
    obtain ⟨rfl, rfl⟩ := h1
    have hc : (0 : Int) + c2 = c2 := by omega
    rw [List.nil_append, hc]
    exact h2
  | cons x rest ih =>
    intro a m c1 l2 b c2 h1 h2
    obtain ⟨w, c', hw, h1', rfl⟩ := h1
    exact ⟨w, c' + c2, hw, ih h1' h2, by omega⟩

theorem isWalk_split {g : DirectedGraph} :
    ∀ (l1 : List Nat) {a : Nat} {l2 : List Nat} {b : Nat} {c : Int},
      IsWalk g a (l1 ++ l2) b c →
      ∃ m c1 c2, IsWalk g a l1 m c1 ∧ IsWalk g m l2 b c2 ∧ c = c1 + c2 := by
  intro l1
  induction l1 with
  | nil =>
    intro a l2 b c h
    exact ⟨a, 0, c, ⟨rfl, rfl⟩, h, by omega⟩
  | cons x rest ih =>
    intro a l2 b c h
    obtain ⟨w, c', hw, h', rfl⟩ := h
    obtain ⟨m, c1, c2, w1, w2, rfl⟩ := ih h'
    exact ⟨m, w + c1, c2, ⟨w, c1, hw, w1, rfl⟩, w2, by omega⟩

theorem isWalk_concat_end {g : DirectedGraph} :
    ∀ (l : List Nat) {a b x : Nat} {c : Int},
      IsWalk g a (l ++ [x]) b c → b = x := by
  intro l
  induction l with
  | nil =>
    intro a b x c h
    obtain ⟨w, c', _, hend, _⟩ := h
    exact hend.1
  | cons y rest ih =>
    intro a b x c h
    obtain ⟨w, c', _, h', _⟩ := h
    exact ih h'

theorem isWalk_reach {g : DirectedGraph} :
    ∀ (l : List Nat) {a b : Nat} {c : Int}, IsWalk g a l b c →
      Reach (nbrs g) a b := by
  intro l
  induction l with
  | nil =>
    intro a b c h
    obtain ⟨rfl, _⟩ := h
    exact Reach.refl _
  | cons x rest ih =>
    intro a b c h
    obtain ⟨w, c', hw, h', _⟩ := h
    have hx : x ∈ nbrs g a := by
      unfold nbrs
      exact List.mem_map_of_mem Prod.fst (plookup_mem hw)
    exact reach_trans (reach_of_edge hx) (ih h')

theorem isWalk_mem_vertices {g : DirectedGraph} (hinv : Inv g) :
    ∀ (l : List Nat) {a b : Nat} {c : Int}, IsWalk g a l b c →
      ∀ x ∈ l, x ∈ vertices g := by
  intro l
  induction l with
  | nil =>
    intro a b c _ x hx
    exact absurd hx (List.not_mem_nil x)
  | cons y rest ih =>
    intro a b c h x hx
    obtain ⟨w, c', hw, h', _⟩ := h
    rcases List.mem_cons.mp hx with rfl | hx'
    · have ht : (a, x, w) ∈ edges g := mem_edges_of_nbrsMap (plookup_mem hw)
      exact (hinv.2 (a, x, w) ht).2
    · exact ih h' x hx'

theorem isWalk_nonneg {g : DirectedGraph} (hw : nonNegWeights g = true) :
    ∀ (l : List Nat) {a b : Nat} {c : Int}, IsWalk g a l b c → 0 ≤ c := by
  have hall : ∀ t ∈ edges g, (0 : Int) ≤ t.2.2 := by
    intro t ht
    have := List.all_eq_true.mp hw t ht
    exact of_decide_eq_true this
  intro l
  induction l with
  | nil =>
    intro a b c h
    obtain ⟨_, rfl⟩ := h
    exact le_refl 0
  | cons x rest ih =>
    intro a b c h
    obtain ⟨w, c', hwl, h', rfl⟩ := h
    have h1 : (0 : Int) ≤ w :=
      hall (a, x, w) (mem_edges_of_nbrsMap (plookup_mem hwl))
    have h2 := ih h'
    omega

theorem mem_split_list : ∀ {l : List Nat} {a : Nat}, a ∈ l →
    ∃ l1 l2, l = l1 ++ a :: l2 := by
  intro l
  induction l with
  | nil => intro a ha; exact absurd ha (List.not_mem_nil a)
  | cons b t ih =>
    intro a ha
    rcases List.mem_cons.mp ha with rfl | ha'
    · exact ⟨[], t, rfl⟩
    · obtain ⟨l1, l2, rfl⟩ := ih ha'
      exact ⟨b :: l1, l2, rfl⟩

theorem exists_split_of_not_nodup : ∀ {l : List Nat}, ¬ l.Nodup →
    ∃ x l1 l2 l3, l = l1 ++ x :: l2 ++ x :: l3 := by
  intro l
  induction l with
  | nil => intro h; exact absurd List.nodup_nil h
  | cons a t ih =>
    intro h
    by_cases ha : a ∈ t
    · obtain ⟨l2, l3, rfl⟩ := mem_split_list ha
      exact ⟨a, [], l2, l3, rfl⟩
    · have ht : ¬ t.Nodup := fun hn => h (List.nodup_cons.mpr ⟨ha, hn⟩)
      obtain ⟨x, l1, l2, l3, rfl⟩ := ih ht
      exact ⟨x, a :: l1, l2, l3, rfl⟩

theorem nodup_length_le {l u : List Nat} (hnd : l.Nodup)
    (hsub : ∀ x ∈ l, x ∈ u) : l.length ≤ u.length :=
  (List.Nodup.subperm hnd (fun x hx => hsub x hx)).length_le

theorem walk_shorten {g : DirectedGraph} {s : Nat} (hinv : Inv g)
    (hs : s ∈ vertices g) (hnc : NoNegClosed g s) :
    ∀ (n : Nat) (l : List Nat) (b : Nat) (c : Int), l.length ≤ n →
      IsWalk g s l b c →
      ∃ l' c', IsWalk g s l' b c' ∧ c' ≤ c ∧
        l'.length + 1 ≤ (vertices g).length := by
  intro n
  induction n using Nat.strong_induction_on with
  | _ n ih =>
    intro l b c hlen hw
    by_cases hshort : l.length + 1 ≤ (vertices g).length
    · exact ⟨l, c, hw, le_refl c, hshort⟩
    · have hndup : ¬ (s :: l).Nodup := by
        intro hnd
        have hsub : ∀ x ∈ s :: l, x ∈ vertices g := by
          intro x hx
          rcases List.mem_cons.mp hx with rfl | hx'
          · exact hs
          · exact isWalk_mem_vertices hinv l hw x hx'
        have hle := nodup_length_le hnd hsub
        simp only [List.length_cons] at hle
        omega
      obtain ⟨x, l1, l2, l3, hsplit⟩ := exists_split_of_not_nodup hndup
      cases l1 with
      | nil =>
        rw [List.nil_append] at hsplit
        injection hsplit with hx hl
        rw [← hx] at hl
        have hl2 : l = (l2 ++ [s]) ++ l3 := by
          rw [hl]
          simp
        rw [hl2] at hw
        obtain ⟨m, c1, c2, w1, w2, rfl⟩ := isWalk_split (l2 ++ [s]) hw
        have hm : m = s := isWalk_concat_end l2 w1
        rw [hm] at w1 w2
        have hc1 : 0 ≤ c1 := hnc s (l2 ++ [s]) c1 (Reach.refl s) w1
        have hlt : l3.length < n := by
          rw [hl2] at hlen
          simp only [List.length_append, List.length_cons,
            List.length_nil] at hlen
          omega
        obtain ⟨l', c', w', hle, hlen'⟩ := ih l3.length hlt l3 b c2
          (le_refl _) w2
        exact ⟨l', c', w', by omega, hlen'⟩
      | cons s1 t1 =>
        rw [List.cons_append] at hsplit
        injection hsplit with hs1 hl
        have hl2 : l = (t1 ++ [x]) ++ ((l2 ++ [x]) ++ l3) := by
          rw [hl]
          simp [List.append_assoc]
        rw [hl2] at hw
        obtain ⟨m1, c1, c23, w1, w23, rfl⟩ := isWalk_split (t1 ++ [x]) hw
        have hm1 : m1 = x := isWalk_concat_end t1 w1
        rw [hm1] at w1 w23
        obtain ⟨m2, ca, cb, wA, wB, rfl⟩ := isWalk_split (l2 ++ [x]) w23
        have hm2 : m2 = x := isWalk_concat_end l2 wA
        rw [hm2] at wA wB
        have hreach : Reach (nbrs g) s x := isWalk_reach (t1 ++ [x]) w1
        have hca : 0 ≤ ca := hnc x (l2 ++ [x]) ca hreach wA
        have wnew : IsWalk g s ((t1 ++ [x]) ++ l3) b (c1 + cb) :=
          isWalk_append (t1 ++ [x]) w1 wB
        have hlt : ((t1 ++ [x]) ++ l3).length < n := by
          rw [hl] at hlen
          simp only [List.append_eq, List.length_append, List.length_cons,
            List.length_nil] at hlen ⊢
          omega
        obtain ⟨l', c', w', hle, hlen'⟩ := ih ((t1 ++ [x]) ++ l3).length hlt
          ((t1 ++ [x]) ++ l3) b (c1 + cb) (le_refl _) wnew
        exact ⟨l', c', w', by omega, hlen'⟩

/-! ### C10, Bellman-Ford part: pass invariants, convergence within
`vertex_count` passes, and preservation of the start's backtrack entry -/

theorem dlook_pset_ne (dist : List (Nat × DVal)) {k x : Nat} (v : DVal)
    (h : x ≠ k) : dlook (pset dist k v) x = dlook dist x := by
  unfold dlook
  rw [plookup_pset_ne _ _ h]

theorem eq_nil_or_concat_own : ∀ (l : List Nat),
    l = [] ∨ ∃ t x, l = t ++ [x] := by
  intro l
  induction l with
  | nil => exact Or.inl rfl
  | cons a t ih =>
    rcases ih with rfl | ⟨t', x, rfl⟩
    · exact Or.inr ⟨[], a, rfl⟩
    · exact Or.inr ⟨a :: t', x, rfl⟩

theorem bf_edge_fold_stable (isLast : Bool) :
    ∀ (es : List (Nat × Nat × Int)) (dist : List (Nat × DVal))
      (bt : List (Nat × Option Nat)),
      (∀ t ∈ es, t.1 ∈ pkeys dist ∧ t.2.1 ∈ pkeys dist) →
      (∀ t ∈ es, dvalLt (dvalAdd (dlook dist t.1) t.2.2)
        (dlook dist t.2.1) = false) →
      bf_edge_fold isLast es dist bt = .ok (dist, bt) := by
  intro es
  induction es with
  | nil => intro dist bt _ _; rfl
  | cons t rest ih =>
    intro dist bt h1 h2
    obtain ⟨src, des, w⟩ := t
    obtain ⟨hk1, hk2⟩ := h1 (src, des, w) (List.mem_cons_self _ _)
    obtain ⟨dsrc, hdsrc⟩ :=
      Option.isSome_iff_exists.mp (plookup_isSome_iff.mpr hk1)
    obtain ⟨ddes, hddes⟩ :=
      Option.isSome_iff_exists.mp (plookup_isSome_iff.mpr hk2)
    have hlt := h2 (src, des, w) (List.mem_cons_self _ _)
    dsimp only at hlt
    rw [dlook_eq hdsrc, dlook_eq hddes] at hlt
    have hne : ¬ (dvalLt (dvalAdd dsrc w) ddes = true) := by
      rw [hlt]
      simp
    rw [bf_edge_fold, hdsrc, hddes]
    dsimp only
    rw [if_neg hne]
    exact ih dist bt (fun q hq => h1 q (List.mem_cons_of_mem _ hq))
      (fun q hq => h2 q (List.mem_cons_of_mem _ hq))

theorem bf_edge_fold_step {g : DirectedGraph} {s : Nat} (hwf : WF g)
    (hnc : NoNegClosed g s) :
    ∀ (es : List (Nat × Nat × Int)) (dist : List (Nat × DVal))
      (bt : List (Nat × Option Nat)),
      (∀ t ∈ es, t ∈ edges g) →
      (∀ t ∈ es, t.1 ∈ pkeys dist ∧ t.2.1 ∈ pkeys dist) →
      (∀ x c, dlook dist x = .fin c → ∃ l, IsWalk g s l x c) →
      DvLe (dlook dist s) (.fin 0) →
      ∃ dist1 bt1,
        bf_edge_fold false es dist bt = .ok (dist1, bt1) ∧
        pkeys dist1 = pkeys dist ∧
        (∀ x, DvLe (dlook dist1 x) (dlook dist x)) ∧
        (∀ t ∈ es, DvLe (dlook dist1 t.2.1)
          (dvalAdd (dlook dist t.1) t.2.2)) ∧
        (∀ x c, dlook dist1 x = .fin c → ∃ l, IsWalk g s l x c) ∧
        DvLe (dlook dist1 s) (.fin 0) ∧
        plookup bt1 s = plookup bt s := by
  intro es
  induction es with
  | nil =>
    intro dist bt _ _ hS hs0
    exact ⟨dist, bt, rfl, rfl, fun x => dvLe_refl _,
      fun t ht => absurd ht (List.not_mem_nil t), hS, hs0, rfl⟩
  | cons t rest ih =>
    intro dist bt hes hks hS hs0
    obtain ⟨src, des, w⟩ := t
    obtain ⟨hk1, hk2⟩ := hks (src, des, w) (List.mem_cons_self _ _)
    obtain ⟨dsrc, hdsrc⟩ :=
      Option.isSome_iff_exists.mp (plookup_isSome_iff.mpr hk1)
    obtain ⟨ddes, hddes⟩ :=
      Option.isSome_iff_exists.mp (plookup_isSome_iff.mpr hk2)
    rw [bf_edge_fold, hdsrc, hddes]
    dsimp only
    by_cases hlt : dvalLt (dvalAdd dsrc w) ddes = true
    · rw [if_pos hlt, if_neg Bool.false_ne_true]
      obtain ⟨cu, rfl, hltf⟩ := dvalLt_add_true hlt
      obtain ⟨l, hwl⟩ := hS src cu (dlook_eq hdsrc)
      have hedge : plookup (nbrsMap g src) des = some w :=
        plookup_nbrsMap_of_mem_edges hwf
          (hes (src, des, w) (List.mem_cons_self _ _))
      have hwdes : IsWalk g s (l ++ [des]) des (cu + w) :=
        isWalk_append l hwl (isWalk_single hedge)
      have hdes_ne : des ≠ s := by
        intro h
        rw [h] at hwdes
        have hdd : dlook dist s = ddes := by
          rw [← h]
          exact dlook_eq hddes
        have hs0' := hs0
        rw [hdd] at hs0'
        cases ddes with
        | inf => exact hs0'
        | fin cs =>
          have h1 : cu + w < cs := of_decide_eq_true hltf
          have h2 : cs ≤ 0 := hs0'
          have h3 : 0 ≤ cu + w :=
            hnc s (l ++ [s]) (cu + w) (Reach.refl s) hwdes
          omega
      have hks' : ∀ q ∈ rest,
          q.1 ∈ pkeys (pset dist des (.fin (cu + w))) ∧
          q.2.1 ∈ pkeys (pset dist des (.fin (cu + w))) := by
        intro q hq
        rw [pkeys_pset_of_mem _ hk2]
        exact hks q (List.mem_cons_of_mem _ hq)
      have hS' : ∀ x c, dlook (pset dist des (.fin (cu + w))) x = .fin c →
          ∃ l', IsWalk g s l' x c := by
        intro x c hx
        by_cases hxd : x = des
        · rw [hxd, dlook_eq (plookup_pset_self _ _ _)] at hx
          injection hx with hx'
          refine ⟨l ++ [des], ?_⟩
          rw [hxd, ← hx']
          exact hwdes
        · rw [dlook_pset_ne _ _ hxd] at hx
          exact hS x c hx
      have hs0' : DvLe (dlook (pset dist des (.fin (cu + w))) s) (.fin 0) := by
        rw [dlook_pset_ne _ _ (Ne.symm hdes_ne)]
        exact hs0
      obtain ⟨d1, b1, heq, hkeys, hmono, hbound, hS1, hs01, hbt1⟩ :=
        ih (pset dist des (.fin (cu + w))) (pset bt des (some src))
          (fun q hq => hes q (List.mem_cons_of_mem _ hq)) hks' hS' hs0'
      refine ⟨d1, b1, heq, ?_, ?_, ?_, hS1, hs01, ?_⟩
      · rw [hkeys, pkeys_pset_of_mem _ hk2]
      · intro x
        refine dvLe_trans (hmono x) ?_
        by_cases hxd : x = des
        · rw [hxd, dlook_eq (plookup_pset_self _ _ _), dlook_eq hddes]
          exact dvLe_of_lt_true hltf
        · rw [dlook_pset_ne _ _ hxd]
          exact dvLe_refl _
      · intro q hq
        rcases List.mem_cons.mp hq with rfl | hq'
        · dsimp only
          refine dvLe_trans (hmono des) ?_
          rw [dlook_eq (plookup_pset_self _ _ _), dlook_eq hdsrc]
          exact dvLe_refl _
        · refine dvLe_trans (hbound q hq') ?_
          by_cases hqd : q.1 = des
          · rw [hqd, dlook_eq (plookup_pset_self _ _ _), dlook_eq hddes]
            exact dvLe_add _ (dvLe_of_lt_true hltf)
          · rw [dlook_pset_ne _ _ hqd]
            exact dvLe_refl _
      · rw [hbt1, plookup_pset_ne _ _ (Ne.symm hdes_ne)]
    · rw [if_neg hlt]
      have hltf : dvalLt (dvalAdd dsrc w) ddes = false := by
        revert hlt
        cases dvalLt (dvalAdd dsrc w) ddes <;> simp
      obtain ⟨d1, b1, heq, hkeys, hmono, hbound, hS1, hs01, hbt1⟩ :=
        ih dist bt (fun q hq => hes q (List.mem_cons_of_mem _ hq))
          (fun q hq => hks q (List.mem_cons_of_mem _ hq)) hS hs0
      refine ⟨d1, b1, heq, hkeys, hmono, ?_, hS1, hs01, hbt1⟩
      intro q hq
      rcases List.mem_cons.mp hq with rfl | hq'
      · dsimp only
        refine dvLe_trans (hmono des) ?_
        rw [dlook_eq hddes, dlook_eq hdsrc]
        exact dvLe_of_lt_false hltf
      · exact hbound q hq'

theorem bf_loop_run {g : DirectedGraph} {s : Nat} (hinv : Inv g)
    (hs : s ∈ vertices g) (hnc : NoNegClosed g s) :
    ∀ (k : Nat) (dist : List (Nat × DVal)) (bt : List (Nat × Option Nat))
      (j : Nat),
      j + k + 1 = (vertices g).length →
      (∀ t ∈ edges g, t.1 ∈ pkeys dist ∧ t.2.1 ∈ pkeys dist) →
      (∀ x c, dlook dist x = .fin c → ∃ l, IsWalk g s l x c) →
      DvLe (dlook dist s) (.fin 0) →
      plookup bt s = some none →
      (∀ (l : List Nat) (b : Nat) (c : Int), IsWalk g s l b c →
        l.length ≤ j → DvLe (dlook dist b) (.fin c)) →
      ∃ dist1 bt1, bf_loop (edges g) (k + 1) dist bt = .ok (dist1, bt1) ∧
        plookup bt1 s = some none := by
  intro k
  induction k with
  | zero =>
    intro dist bt j hj hks hS hs0 hbt hP
    have hnorel : ∀ t ∈ edges g, dvalLt (dvalAdd (dlook dist t.1) t.2.2)
        (dlook dist t.2.1) = false := by
      intro t ht
      cases hsrc : dlook dist t.1 with
      | inf => rfl
      | fin cu =>
        obtain ⟨l, hwl⟩ := hS t.1 cu hsrc
        have hedge := plookup_nbrsMap_of_mem_edges hinv.1 ht
        have hwdes : IsWalk g s (l ++ [t.2.1]) t.2.1 (cu + t.2.2) :=
          isWalk_append l hwl (isWalk_single hedge)
        obtain ⟨l', c', hw', hle, hlen'⟩ := walk_shorten hinv hs hnc
          (l ++ [t.2.1]).length (l ++ [t.2.1]) t.2.1 (cu + t.2.2)
          (le_refl _) hwdes
        have hPl : DvLe (dlook dist t.2.1) (.fin c') :=
          hP l' t.2.1 c' hw' (by omega)
        have hPl2 : DvLe (dlook dist t.2.1) (.fin (cu + t.2.2)) :=
          dvLe_trans hPl hle
        exact lt_false_of_dvLe hPl2
    have hfold := bf_edge_fold_stable (decide (0 = 0)) (edges g) dist bt
      hks hnorel
    refine ⟨dist, bt, ?_, hbt⟩
    rw [bf_loop, hfold]
    rfl
  | succ k ihk =>
    intro dist bt j hj hks hS hs0 hbt hP
    obtain ⟨d1, b1, heq, hkeys, hmono, hbound, hS1, hs01, hbt1⟩ :=
      bf_edge_fold_step hinv.1 hnc (edges g) dist bt (fun t ht => ht)
        hks hS hs0
    have hflag : (decide (k + 1 = 0)) = false := by simp
    rw [bf_loop, hflag, heq]
    dsimp only
    have hP1 : ∀ (l : List Nat) (b : Nat) (c : Int), IsWalk g s l b c →
        l.length ≤ j + 1 → DvLe (dlook d1 b) (.fin c) := by
      intro l b c hw hlen
      by_cases hsh : l.length ≤ j
      · exact dvLe_trans (hmono b) (hP l b c hw hsh)
      · rcases eq_nil_or_concat_own l with rfl | ⟨t0, x, rfl⟩
        · exact dvLe_trans (hmono b) (hP [] b c hw (by simp))
        · obtain ⟨m, c1, c2, w1, w2, rfl⟩ := isWalk_split t0 hw
          obtain ⟨wgt, c0, hlk, hend, hc2⟩ := w2
          obtain ⟨hbx0, hc0⟩ := hend
          have hPm : DvLe (dlook dist m) (.fin c1) := by
            refine hP t0 m c1 w1 ?_
            simp only [List.length_append, List.length_cons,
              List.length_nil] at hlen
            omega
          have hedge : (m, x, wgt) ∈ edges g :=
            mem_edges_of_nbrsMap (plookup_mem hlk)
          have hb := hbound (m, x, wgt) hedge
          dsimp only at hb
          rw [hbx0]
          refine dvLe_trans hb ?_
          refine dvLe_trans (dvLe_add wgt hPm) ?_
          show (c1 + wgt : Int) ≤ c1 + c2
          omega
    exact ihk d1 b1 (j + 1) (by omega)
      (fun t ht => by rw [hkeys]; exact hks t ht)
      hS1 hs01 (by rw [hbt1]; exact hbt) hP1

theorem bf_self {g : DirectedGraph} {s : Nat} (hs : s ∈ vertices g)
    (hinv : Inv g) (hnc : NoNegClosed g s) :
    find_shortest_path_bellman_ford g s s = .ok [s] := by
  unfold find_shortest_path_bellman_ford
  have hVlen : (vertices g).length = vertex_count g := by
    unfold vertices vertex_count pkeys
    exact List.length_map _ _
  have hVpos : 1 ≤ vertex_count g := by
    have hlen : 1 ≤ (vertices g).length := by
      cases hv : vertices g with
      | nil => rw [hv] at hs; exact absurd hs (List.not_mem_nil s)
      | cons a t => simp
    omega
  obtain ⟨k0, hk0⟩ : ∃ k0, vertex_count g = k0 + 1 :=
    ⟨vertex_count g - 1, by omega⟩
  have hks0 : ∀ t ∈ edges g, t.1 ∈ pkeys (distInit g s) ∧
      t.2.1 ∈ pkeys (distInit g s) := by
    intro t ht
    rw [pkeys_distInit g s hs]
    exact hinv.2 t ht
  have hS0 : ∀ x c, dlook (distInit g s) x = .fin c →
      ∃ l, IsWalk g s l x c := by
    intro x c hx
    rcases distInit_lookup g s x with h | ⟨rfl, h⟩
    · rw [h] at hx
      simp at hx
    · rw [h] at hx
      injection hx with hc
      exact ⟨[], ⟨rfl, hc.symm⟩⟩
  have hs00 : DvLe (dlook (distInit g s) s) (.fin 0) := by
    rw [dlook_eq (plookup_distInit_self g s)]
    exact le_refl (0 : Int)
  have hbt0 : plookup (btInit g) s = some none := plookup_btInit g s hs
  have hP0 : ∀ (l : List Nat) (b : Nat) (c : Int), IsWalk g s l b c →
      l.length ≤ 0 → DvLe (dlook (distInit g s) b) (.fin c) := by
    intro l b c hw hlen
    have hl : l = [] := List.length_eq_zero.mp (by omega)
    rw [hl] at hw
    obtain ⟨rfl, rfl⟩ := hw
    exact hs00
  obtain ⟨d1, b1, heqr, hbt1⟩ := bf_loop_run hinv hs hnc k0
    (distInit g s) (btInit g) 0 (by omega) hks0 hS0 hs00 hbt0 hP0
  rw [hk0, heqr]
  dsimp only
  exact construct_path_self b1 s hbt1

/-- C10: for every graph with `s` in its vertex set,
`find_shortest_path_bfs(s, s)` returns the single-vertex path `[s]` without
failing; on an API-reachable store (the `Inv` invariant, proved to hold for
every reachable state in C8) the same holds for
`find_shortest_path_dijkstra(s, s)` when all edge weights are non-negative
and for `find_shortest_path_bellman_ford(s, s)` when no negative-weight
cycle is reachable from `s` (no reachable closed walk has negative
weight). -/
theorem c10_self_paths (g : DirectedGraph) (s : Nat)
    (hs : s ∈ vertices g) :
    (find_shortest_path_bfs g s s).1 = .ok [s] ∧
    (Inv g → nonNegWeights g = true →
      (find_shortest_path_dijkstra g s s).1 = .ok [s]) ∧
    (Inv g → NoNegClosed g s →
      find_shortest_path_bellman_ford g s s = .ok [s]) := by
  refine ⟨?_, ?_, ?_⟩
  · unfold find_shortest_path_bfs
    have h := bfs_sp_loop_btfix s s (travFuel g) g [s] [s] (btInit g)
      (List.mem_singleton.mpr rfl) (plookup_btInit g s hs)
    cases hl : bfs_sp_loop s (travFuel g) g [s] [s] (btInit g) with
    | mk g1 bt =>
      rw [hl] at h
      dsimp only
      exact construct_path_self bt s h
  · intro hinv _hw
    unfold find_shortest_path_dijkstra
    have hcl : ∀ (x : Nat) (p : Nat × Int), p ∈ nbrsMap g x →
        p.1 ∈ pkeys (distInit g s) := by
      intro x p hp
      rw [pkeys_distInit g s hs]
      exact (hinv.2 (x, p.1, p.2) (mem_edges_of_nbrsMap hp)).2
    have hq : ∀ pr ∈ ([((0 : Int), s)] : List (Int × Nat)), pr.2 = s := by
      intro pr hpr
      rw [List.mem_singleton] at hpr
      rw [hpr]
    obtain ⟨bt1, g1, heq, hbt1⟩ := dij_loop_ok g s (dijFuel g) g []
      [((0 : Int), s)] (distInit g s) (btInit g) (fun _ => rfl)
      (Or.inr hq) hcl (plookup_btInit g s hs)
    rw [heq]
    dsimp only
    exact construct_path_self bt1 s hbt1
  · intro hinv hnc
    exact bf_self hs hinv hnc

/-- Witness for C10: on the chain `1 → 2 → 3` (both weights `1`), vertex
`1` is present, the reachable-state invariant holds, all weights are
non-negative, no closed walk has negative weight, and all three self-path
calls return `[1]`. -/
theorem c10_self_paths_witness :
    1 ∈ vertices chainGraph ∧
    ((find_shortest_path_bfs chainGraph 1 1).1 = .ok [1] ∧
      (find_shortest_path_dijkstra chainGraph 1 1).1 = .ok [1] ∧
      find_shortest_path_bellman_ford chainGraph 1 1 = .ok [1]) := by
  obtain ⟨h1, h2, h3⟩ := c10_self_paths chainGraph 1 (by decide)
  exact ⟨by decide, h1, h2 (by decide) (by decide),
    h3 (by decide) (fun u l c _ hw => isWalk_nonneg (by decide) l hw)⟩

end PyGraph
